import Mathlib

/-!
# Verification of the scintillometry integration engine

A shallow embedding of `scintillometry/integration.py`: the overlap
accumulator (`IntegrateBase._integrate`), the frame driver
(`IntegrateBase._read_frame`), the fixed-rate and phase-driven offset
resolvers (`Integrate._get_offsets`), the folding accumulator
(`Fold._integrate`) and the profile stacker (`Stack`).

Numeric conventions: underlying samples and accumulated sums are exact
rationals (`ℚ`), stream positions and counts are integers (`ℤ`), and the
IEEE-754 outcomes of the final `out /= count` division (NaN, signed
infinities) are modelled explicitly by `FloatVal`.
-/

namespace Scintillometry

/-- Mirror of `np.round(x).astype(int)`: round half to even. -/
def nround (q : ℚ) : ℤ :=
  if q - ⌊q⌋ < 1/2 then ⌊q⌋
  else if 1/2 < q - ⌊q⌋ then ⌊q⌋ + 1
  else if 2 ∣ ⌊q⌋ then ⌊q⌋ else ⌊q⌋ + 1

theorem nround_intCast (n : ℤ) : nround (n : ℚ) = n := by
  simp [nround]

theorem le_nround (q : ℚ) : q - 1/2 ≤ (nround q : ℚ) := by
  have hfl : (⌊q⌋ : ℚ) ≤ q := Int.floor_le q
  have hfl' : q - 1 < (⌊q⌋ : ℚ) := Int.sub_one_lt_floor q
  unfold nround
  split
  · linarith
  · split
    · push_cast; linarith
    · split <;> push_cast <;> linarith

theorem nround_le (q : ℚ) : (nround q : ℚ) ≤ q + 1/2 := by
  have hfl : (⌊q⌋ : ℚ) ≤ q := Int.floor_le q
  unfold nround
  split
  · linarith
  · rename_i h1
    push_neg at h1
    split
    · rename_i h2; push_cast; linarith
    · rename_i h2
      push_neg at h2
      have : q - ⌊q⌋ = 1/2 := le_antisymm h2 h1
      split <;> push_cast <;> linarith

theorem floor_le_nround (q : ℚ) : ⌊q⌋ ≤ nround q := by
  unfold nround
  split
  · exact le_rfl
  · split
    · omega
    · split <;> omega

theorem nround_le_floor_add_one (q : ℚ) : nround q ≤ ⌊q⌋ + 1 := by
  unfold nround
  split
  · omega
  · split
    · exact le_rfl
    · split <;> omega

theorem nround_eq_floor_of_lt {q : ℚ} (h : q - ⌊q⌋ < 1/2) : nround q = ⌊q⌋ := by
  unfold nround
  rw [if_pos h]

theorem nround_eq_floor_add_one_of_lt {q : ℚ} (h : 1/2 < q - ⌊q⌋) :
    nround q = ⌊q⌋ + 1 := by
  unfold nround
  rw [if_neg (by linarith), if_pos h]

theorem nround_eq_zero_iff (q : ℚ) : nround q = 0 ↔ -(1/2) ≤ q ∧ q ≤ 1/2 := by
  constructor
  · intro h
    have h1 := le_nround q
    have h2 := nround_le q
    rw [h] at h1 h2
    push_cast at h1 h2
    constructor <;> linarith
  · rintro ⟨h1, h2⟩
    rcases lt_or_le q 0 with hq | hq
    · have hf : ⌊q⌋ = -1 := by
        rw [Int.floor_eq_iff]
        push_cast
        constructor <;> linarith
      rcases lt_or_le (-(1/2) : ℚ) q with hq2 | hq2
      · have : nround q = ⌊q⌋ + 1 := by
          apply nround_eq_floor_add_one_of_lt
          rw [hf]; push_cast; linarith
        omega
      · have hq3 : q = -(1/2) := le_antisymm (by linarith) h1
        subst hq3
        norm_num [nround]
    · have hf : ⌊q⌋ = 0 := by
        rw [Int.floor_eq_iff]
        push_cast
        constructor <;> linarith
      rcases lt_or_le q (1/2 : ℚ) with hq2 | hq2
      · have : nround q = ⌊q⌋ := by
          apply nround_eq_floor_of_lt
          rw [hf]; push_cast; linarith
        omega
      · have hq3 : q = 1/2 := le_antisymm h2 hq2
        subst hq3
        norm_num [nround]

theorem nround_mono {q r : ℚ} (h : q ≤ r) : nround q ≤ nround r := by
  by_contra hcon
  push_neg at hcon
  have hq1 := floor_le_nround q
  have hq2 := nround_le_floor_add_one q
  have hr1 := floor_le_nround r
  have hr2 := nround_le_floor_add_one r
  have hff := Int.floor_le_floor h
  rcases lt_or_eq_of_le hff with hlt | heq
  · omega
  · have hnq : nround q = ⌊q⌋ + 1 := by omega
    have hnr : nround r = ⌊r⌋ := by omega
    have h1 : ¬ (q - ⌊q⌋ < 1/2) := fun hc => by
      rw [nround_eq_floor_of_lt hc] at hnq; omega
    have h2 : ¬ (1/2 < r - ⌊r⌋) := fun hc => by
      rw [nround_eq_floor_add_one_of_lt hc] at hnr; omega
    push_neg at h1 h2
    have hqr : q = r := by
      have hc : (⌊q⌋ : ℚ) = (⌊r⌋ : ℚ) := by exact_mod_cast heq
      linarith
    subst hqr
    omega

/-! ## Overlap accumulator (`IntegrateBase._integrate`)

The frame's per-bin sum and count buffers (`self._result`, `self._count`)
are modelled as functions from the bin index; the frame's bin-edge array
`self._offsets` (length `n + 1` for `n` bins) as a function from the edge
index.  Underlying data are indexed relative to the delivered slice. -/

/-- Per-frame sum/count buffers (`self._result` and `self._count`). -/
structure Acc where
  sums : ℕ → ℚ
  counts : ℕ → ℤ

/-- Freshly zeroed buffers, as allocated by `_read_frame`. -/
def accZero : Acc := ⟨fun _ => 0, fun _ => 0⟩

/-- `np.searchsorted(offsets[1:], v, side='right')` for sorted edges:
the number of inner/right edges that are `≤ v`. -/
def ssStart (o : ℕ → ℤ) (n : ℕ) (v : ℤ) : ℕ :=
  ((Finset.range n).filter fun i => o (i + 1) ≤ v).card

/-- `np.searchsorted(offsets[:-1], v, side='left')` for sorted edges:
the number of left edges that are `< v`. -/
def ssStop (o : ℕ → ℤ) (n : ℕ) (v : ℤ) : ℕ :=
  ((Finset.range n).filter fun i => o i < v).card

/-- The cut-point array `indices`: the touched offsets shifted by
`item.start`, with `indices[0] = 0` and `indices[-1] = item.stop - item.start`
forced afterwards (the `[-1]` write lands last, as in the source). -/
def cutIdx (o : ℕ → ℤ) (start stop : ℕ) (s t : ℤ) (j : ℕ) : ℤ :=
  if j = stop - start then t - s
  else if j = 0 then 0
  else o (start + j) - s

/-- One segment of `np.add.reduceat(data, indices[:-1])`: the sum of
`data[i:j]` when `i < j`, and — reduceat's documented quirk — the single
element `data[i]` when `i ≥ j`. -/
def segSum (data : ℤ → ℚ) (i j : ℤ) : ℚ :=
  if i < j then ∑ k in Finset.Ico i j, data k else data i

/-- `IntegrateBase._integrate` for one delivered slice `[s, t)` of the
underlying stream (relative to the frame start): find the touched bins by
binary search, cut the slice at the clipped bin edges, and add each
segment's sum and length into that bin's buffers. -/
def integrateStep (o : ℕ → ℤ) (n : ℕ) (s t : ℤ) (data : ℤ → ℚ) (a : Acc) : Acc :=
  let start := ssStart o n s
  let stop := ssStop o n t
  { sums := fun b =>
      if start ≤ b ∧ b < stop then
        a.sums b + segSum data (cutIdx o start stop s t (b - start))
          (cutIdx o start stop s t (b - start + 1))
      else a.sums b
    counts := fun b =>
      if start ≤ b ∧ b < stop then
        a.counts b + (cutIdx o start stop s t (b - start + 1) -
          cutIdx o start stop s t (b - start))
      else a.counts b }

/-- The push-style read of one frame: the underlying reader delivers the
frame's raw samples as consecutive slices cut at the positions listed in
`cuts` (relative to the frame start), each slice triggering one
`_integrate` callback. -/
def runSlices (o : ℕ → ℤ) (n : ℕ) (fdata : ℤ → ℚ) : List ℤ → Acc → Acc
  | c1 :: c2 :: rest, a =>
      runSlices o n fdata (c2 :: rest)
        (integrateStep o n c1 c2 (fun j => fdata (c1 + j)) a)
  | _, a => a

/-! ## Frame driver (`IntegrateBase._read_frame`) -/

/-- The absolute underlying position sought before reading the frame:
`self.ih.seek(offsets[0])`. -/
def frameSeekPos (getOff : ℕ → ℤ) (frameIndex spf : ℕ) : ℤ :=
  getOff (frameIndex * spf)

/-- The frame's bin edges after `offsets -= offsets[0]`. -/
def frameOffsets (getOff : ℕ → ℤ) (frameIndex spf : ℕ) (i : ℕ) : ℤ :=
  getOff (frameIndex * spf + i) - frameSeekPos getOff frameIndex spf

/-- Sum/count buffers of one frame after the full push-style read. -/
def frameAcc (getOff : ℕ → ℤ) (frameIndex spf : ℕ) (ihData : ℤ → ℚ)
    (cuts : List ℤ) : Acc :=
  runSlices (frameOffsets getOff frameIndex spf) spf
    (fun j => ihData (frameSeekPos getOff frameIndex spf + j)) cuts accZero

/-- An IEEE-754 double as produced by the final `out /= count`: a finite
value, NaN, or a signed infinity. -/
inductive FloatVal
  | nan
  | posInf
  | negInf
  | val (q : ℚ)
deriving DecidableEq

/-- Float division `s / c` of an exact sum by an integer count:
`0 / 0` is NaN, `±x / 0` is a signed infinity, otherwise exact. -/
def divCount (s : ℚ) (c : ℤ) : FloatVal :=
  if c = 0 then (if s = 0 then .nan else if 0 < s then .posInf else .negInf)
  else .val (s / c)

/-- The averaged output of one frame (`average=True` path of
`_read_frame`): `out /= self._count` elementwise. -/
def frameOut (getOff : ℕ → ℤ) (frameIndex spf : ℕ) (ihData : ℤ → ℚ)
    (cuts : List ℤ) (b : ℕ) : FloatVal :=
  divCount ((frameAcc getOff frameIndex spf ihData cuts).sums b)
    ((frameAcc getOff frameIndex spf ihData cuts).counts b)

/-! ## Fixed-rate offset resolver (`Integrate._get_offsets`, `phase is None`) -/

/-- `np.round((samples / self.sample_rate * self.ih.sample_rate)).astype(int)`:
the underlying position of output sample `s`. -/
def fixedOffset (outRate inRate : ℚ) (s : ℕ) : ℤ :=
  nround ((s : ℚ) / outRate * inRate)

/-! ## Characterizing one accumulator call

`iclamp s t x` is the endpoint of the intersection of a bin edge `x` with
the slice `[s, t)`; the accumulator's cut points are exactly the clamped
bin edges. -/

/-- Clamp `x` into `[s, t]`. -/
def iclamp (s t x : ℤ) : ℤ := max s (min t x)

theorem lt_filter_card_iff {n : ℕ} {P : ℕ → Prop} [DecidablePred P]
    (hdc : ∀ i j, i ≤ j → j < n → P j → P i) {b : ℕ} (hb : b < n) :
    b < ((Finset.range n).filter P).card ↔ P b := by
  constructor
  · intro h
    by_contra hPb
    have hsub : (Finset.range n).filter P ⊆ Finset.range b := by
      intro x hx
      simp only [Finset.mem_filter, Finset.mem_range] at hx ⊢
      by_contra hxb
      push_neg at hxb
      exact hPb (hdc b x hxb hx.1 hx.2)
    have hcard := Finset.card_le_card hsub
    rw [Finset.card_range] at hcard
    omega
  · intro hPb
    have hsub : Finset.range (b + 1) ⊆ (Finset.range n).filter P := by
      intro x hx
      simp only [Finset.mem_range] at hx
      simp only [Finset.mem_filter, Finset.mem_range]
      exact ⟨by omega, hdc x b (by omega) hb hPb⟩
    have hcard := Finset.card_le_card hsub
    rw [Finset.card_range] at hcard
    omega

theorem ssStart_le (o : ℕ → ℤ) (n : ℕ) (s : ℤ) : ssStart o n s ≤ n :=
  le_trans (Finset.card_filter_le _ _) (le_of_eq (Finset.card_range n))

theorem ssStop_le (o : ℕ → ℤ) (n : ℕ) (t : ℤ) : ssStop o n t ≤ n :=
  le_trans (Finset.card_filter_le _ _) (le_of_eq (Finset.card_range n))

theorem ssStart_lt_iff {o : ℕ → ℤ} {n : ℕ} {s : ℤ}
    (hmono : ∀ i j, i ≤ j → o i ≤ o j) {b : ℕ} (hb : b < n) :
    b < ssStart o n s ↔ o (b + 1) ≤ s :=
  lt_filter_card_iff (fun i j hij _ hPj => le_trans (hmono _ _ (by omega)) hPj) hb

theorem ssStop_lt_iff {o : ℕ → ℤ} {n : ℕ} {t : ℤ}
    (hmono : ∀ i j, i ≤ j → o i ≤ o j) {b : ℕ} (hb : b < n) :
    b < ssStop o n t ↔ o b < t :=
  lt_filter_card_iff (fun i j hij _ hPj => lt_of_le_of_lt (hmono i j hij) hPj) hb

theorem o_ssStart_le {o : ℕ → ℤ} {n : ℕ} {s : ℤ}
    (hmono : ∀ i j, i ≤ j → o i ≤ o j) (h0 : o 0 ≤ s) :
    o (ssStart o n s) ≤ s := by
  rcases Nat.eq_zero_or_pos (ssStart o n s) with h | h
  · rw [h]; exact h0
  · have hle := ssStart_le o n s
    have hb : ssStart o n s - 1 < n := by omega
    have hlt := (@ssStart_lt_iff o n s hmono (ssStart o n s - 1) hb).mp (by omega)
    have heq : ssStart o n s - 1 + 1 = ssStart o n s := by omega
    rwa [heq] at hlt

theorem le_o_ssStop {o : ℕ → ℤ} {n : ℕ} {t : ℤ}
    (hmono : ∀ i j, i ≤ j → o i ≤ o j) (hn : t ≤ o n) :
    t ≤ o (ssStop o n t) := by
  rcases Nat.lt_or_ge (ssStop o n t) n with h | h
  · by_contra hc
    push_neg at hc
    exact absurd ((ssStop_lt_iff hmono h).mpr hc) (lt_irrefl _)
  · have hle := ssStop_le o n t
    have : ssStop o n t = n := le_antisymm hle h
    rw [this]; exact hn

theorem ssStart_le_ssStop {o : ℕ → ℤ} {n : ℕ} {s t : ℤ}
    (hmono : ∀ i j, i ≤ j → o i ≤ o j) (hst : s < t) :
    ssStart o n s ≤ ssStop o n t := by
  apply Finset.card_le_card
  intro x hx
  simp only [Finset.mem_filter, Finset.mem_range] at hx ⊢
  exact ⟨hx.1, lt_of_le_of_lt (le_trans (hmono x (x + 1) (by omega)) hx.2) hst⟩

theorem cutIdx_eq_clamp {o : ℕ → ℤ} {n : ℕ} {s t : ℤ}
    (hmono : ∀ i j, i ≤ j → o i ≤ o j) (h0 : o 0 ≤ s) (hst : s < t)
    (hn : t ≤ o n) {j : ℕ} (hj : j ≤ ssStop o n t - ssStart o n s) :
    cutIdx o (ssStart o n s) (ssStop o n t) s t j
      = iclamp s t (o (ssStart o n s + j)) - s := by
  set start := ssStart o n s with hstart
  set stop := ssStop o n t with hstop
  have hss : start ≤ stop := ssStart_le_ssStop hmono hst
  have hstopn : stop ≤ n := ssStop_le o n t
  unfold cutIdx
  split
  · rename_i hjlast
    have hsj : start + j = stop := by omega
    rw [hsj]
    have h1 : t ≤ o stop := le_o_ssStop hmono hn
    have : iclamp s t (o stop) = t := by
      unfold iclamp; omega
    omega
  · rename_i hjlast
    split
    · rename_i hj0
      subst hj0
      have h1 : o start ≤ s := o_ssStart_le hmono h0
      have : iclamp s t (o (start + 0)) = s := by
        unfold iclamp
        have : o (start + 0) = o start := by norm_num
        omega
      omega
    · rename_i hj0
      have hjlt : start + j - 1 < n := by omega
      have h1 : ¬ (start + j - 1 < start) := by omega
      rw [ssStart_lt_iff hmono hjlt] at h1
      have heq : start + j - 1 + 1 = start + j := by omega
      rw [heq] at h1
      have hjlt2 : start + j < n := by omega
      have h2 : o (start + j) < t := (@ssStop_lt_iff o n t hmono (start + j) hjlt2).mp (by omega)
      have : iclamp s t (o (start + j)) = o (start + j) := by
        unfold iclamp; omega
      omega

/-- One `_integrate` call adds to bin `b`'s count exactly the length of
the intersection of bin `b`'s interval with the delivered slice. -/
theorem integrateStep_counts {o : ℕ → ℤ} {n : ℕ} {s t : ℤ} (data : ℤ → ℚ)
    (a : Acc) (hmono : ∀ i j, i ≤ j → o i ≤ o j) (h0 : o 0 ≤ s)
    (hst : s < t) (hn : t ≤ o n) {b : ℕ} (hb : b < n) :
    (integrateStep o n s t data a).counts b
      = a.counts b + (iclamp s t (o (b + 1)) - iclamp s t (o b)) := by
  set start := ssStart o n s with hstart
  set stop := ssStop o n t with hstop
  show (if start ≤ b ∧ b < stop then _ else a.counts b) = _
  split
  · rename_i hbr
    obtain ⟨hb1, hb2⟩ := hbr
    have e1 := @cutIdx_eq_clamp o n s t hmono h0 hst hn (b - start) (by omega)
    have e2 := @cutIdx_eq_clamp o n s t hmono h0 hst hn (b - start + 1) (by omega)
    rw [← hstart, ← hstop] at e1 e2
    have hb1' : start + (b - start) = b := by omega
    have hb2' : start + (b - start + 1) = b + 1 := by omega
    rw [hb1'] at e1
    rw [hb2'] at e2
    rw [e1, e2]
    ring
  · rename_i hbr
    rcases Nat.lt_or_ge b start with hlt | hge
    · have h1 : o (b + 1) ≤ s := (@ssStart_lt_iff o n s hmono b hb).mp hlt
      have h2 : o b ≤ o (b + 1) := hmono b (b + 1) (by omega)
      have c1 : iclamp s t (o (b + 1)) = s := by unfold iclamp; omega
      have c2 : iclamp s t (o b) = s := by unfold iclamp; omega
      rw [c1, c2]
      ring
    · have hge2 : stop ≤ b := by omega
      have h1 : ¬ (o b < t) := by
        intro hc
        exact absurd ((@ssStop_lt_iff o n t hmono b hb).mpr hc) (by omega)
      push_neg at h1
      have h2 : o b ≤ o (b + 1) := hmono b (b + 1) (by omega)
      have c1 : iclamp s t (o (b + 1)) = t := by unfold iclamp; omega
      have c2 : iclamp s t (o b) = t := by unfold iclamp; omega
      rw [c1, c2]
      ring

/-- With strictly increasing bin edges (no empty bin), one `_integrate`
call adds to bin `b`'s sum exactly the sum of the data elements lying in
the intersection of bin `b`'s interval with the delivered slice. -/
theorem integrateStep_sums {o : ℕ → ℤ} {n : ℕ} {s t : ℤ} (data : ℤ → ℚ)
    (a : Acc) (hmono : ∀ i j, i ≤ j → o i ≤ o j)
    (hstrict : ∀ i, i < n → o i < o (i + 1)) (h0 : o 0 ≤ s)
    (hst : s < t) (hn : t ≤ o n) {b : ℕ} (hb : b < n) :
    (integrateStep o n s t data a).sums b
      = a.sums b + ∑ k in Finset.Ico (iclamp s t (o b) - s)
          (iclamp s t (o (b + 1)) - s), data k := by
  set start := ssStart o n s with hstart
  set stop := ssStop o n t with hstop
  show (if start ≤ b ∧ b < stop then _ else a.sums b) = _
  split
  · rename_i hbr
    obtain ⟨hb1, hb2⟩ := hbr
    have e1 := @cutIdx_eq_clamp o n s t hmono h0 hst hn (b - start) (by omega)
    have e2 := @cutIdx_eq_clamp o n s t hmono h0 hst hn (b - start + 1) (by omega)
    rw [← hstart, ← hstop] at e1 e2
    have hb1' : start + (b - start) = b := by omega
    have hb2' : start + (b - start + 1) = b + 1 := by omega
    rw [hb1'] at e1
    rw [hb2'] at e2
    rw [e1, e2]
    -- the segment is non-empty because bin b is touched and non-empty
    have htouch1 : ¬ (o (b + 1) ≤ s) := by
      intro hc
      exact absurd ((@ssStart_lt_iff o n s hmono b hb).mpr hc) (by omega)
    have htouch2 : o b < t := (@ssStop_lt_iff o n t hmono b hb).mp hb2
    have hbo : o b < o (b + 1) := hstrict b hb
    have hlt : iclamp s t (o b) - s < iclamp s t (o (b + 1)) - s := by
      unfold iclamp; omega
    unfold segSum
    rw [if_pos hlt]
  · rename_i hbr
    have hico : Finset.Ico (iclamp s t (o b) - s) (iclamp s t (o (b + 1)) - s)
        = ∅ := by
      rcases Nat.lt_or_ge b start with hlt | hge
      · have h1 : o (b + 1) ≤ s := (@ssStart_lt_iff o n s hmono b hb).mp hlt
        have h2 : o b ≤ o (b + 1) := hmono b (b + 1) (by omega)
        apply Finset.Ico_eq_empty
        unfold iclamp; omega
      · have hge2 : stop ≤ b := by omega
        have h1 : ¬ (o b < t) := by
          intro hc
          exact absurd ((@ssStop_lt_iff o n t hmono b hb).mpr hc) (by omega)
        push_neg at h1
        have h2 : o b ≤ o (b + 1) := hmono b (b + 1) (by omega)
        apply Finset.Ico_eq_empty
        unfold iclamp; omega
    rw [hico, Finset.sum_empty]
    ring

/-! ## Folding the accumulator over a whole delivery -/

theorem iclamp_chain (c1 c2 c3 x : ℤ) (h12 : c1 ≤ c2) (h23 : c2 ≤ c3) :
    iclamp c1 c2 x + iclamp c2 c3 x = iclamp c1 c3 x + c2 := by
  unfold iclamp; omega

theorem pairwise_head_le {l : List ℤ} (hp : List.Pairwise (· < ·) l) {x : ℤ}
    (hx : l.head? = some x) : ∀ c ∈ l, x ≤ c := by
  cases l with
  | nil => simp at hx
  | cons a l =>
      simp only [List.head?_cons, Option.some_inj] at hx
      subst hx
      intro c hc
      rcases List.mem_cons.mp hc with h | h
      · exact le_of_eq h.symm
      · exact le_of_lt ((List.pairwise_cons.mp hp).1 c h)

theorem pairwise_le_getLast {l : List ℤ} (hp : List.Pairwise (· < ·) l) {y : ℤ}
    (hy : l.getLast? = some y) : ∀ c ∈ l, c ≤ y := by
  induction l with
  | nil => simp at hy
  | cons a l ih =>
      intro c hc
      cases l with
      | nil =>
          simp only [List.getLast?_singleton, Option.some_inj] at hy
          simp only [List.mem_singleton] at hc
          omega
      | cons b l' =>
          have hy' : (b :: l').getLast? = some y := by
            rw [← hy, List.getLast?_cons_cons]
          have hymem : y ∈ b :: l' := List.mem_of_mem_getLast? hy'
          rcases List.mem_cons.mp hc with h | h
          · subst h
            exact le_of_lt ((List.pairwise_cons.mp hp).1 y hymem)
          · exact ih (List.pairwise_cons.mp hp).2 hy' c h

/-- Accumulated count over a full delivery: each bin's count grows by the
length of the intersection of its interval with the delivered range. -/
theorem runSlices_counts {o : ℕ → ℤ} {n : ℕ} (fdata : ℤ → ℚ)
    (hmono : ∀ i j, i ≤ j → o i ≤ o j) :
    ∀ (cuts : List ℤ) (a : Acc), List.Pairwise (· < ·) cuts →
      (∀ c ∈ cuts, o 0 ≤ c) → (∀ c ∈ cuts, c ≤ o n) →
      ∀ (c0 cl : ℤ), cuts.head? = some c0 → cuts.getLast? = some cl →
      ∀ (b : ℕ), b < n →
      (runSlices o n fdata cuts a).counts b
        = a.counts b + (iclamp c0 cl (o (b + 1)) - iclamp c0 cl (o b)) := by
  intro cuts
  induction cuts with
  | nil => intro a _ _ _ c0 cl h0 hl b hb; simp at h0
  | cons c1 rest ih =>
      intro a hp hlo hhi c0 cl h0 hl b hb
      simp only [List.head?_cons, Option.some_inj] at h0
      have h0' : c0 = c1 := h0.symm
      subst h0'
      cases rest with
      | nil =>
          simp only [List.getLast?_singleton, Option.some_inj] at hl
          subst hl
          show a.counts b = _
          unfold iclamp
          omega
      | cons c2 rest' =>
          have hl' : (c2 :: rest').getLast? = some cl := by
            rw [← hl, List.getLast?_cons_cons]
          have h12 : c0 < c2 := (List.pairwise_cons.mp hp).1 c2 (by simp)
          have h2l : c2 ≤ cl :=
            pairwise_le_getLast (List.pairwise_cons.mp hp).2 hl' c2 (by simp)
          show (runSlices o n fdata (c2 :: rest') (integrateStep o n c0 c2 _ a)).counts b = _
          rw [ih (integrateStep o n c0 c2 (fun j => fdata (c0 + j)) a)
            (List.pairwise_cons.mp hp).2
            (fun c hc => hlo c (by simp [hc]))
            (fun c hc => hhi c (by simp [hc]))
            c2 cl (by simp) hl' b hb]
          rw [integrateStep_counts _ _ hmono (hlo c0 (by simp)) h12
            (hhi c2 (by simp)) hb]
          have e1 := iclamp_chain c0 c2 cl (o (b + 1)) (le_of_lt h12) h2l
          have e2 := iclamp_chain c0 c2 cl (o b) (le_of_lt h12) h2l
          omega

/-- Chasles relation for sums over clamped intervals: the two pieces of a
bin's intersection with `[c0, c2)` and `[c2, cl)` join into its
intersection with `[c0, cl)`. -/
theorem sum_Ico_clamp_split (f : ℤ → ℚ) {c0 c2 cl x y : ℤ}
    (h02 : c0 ≤ c2) (h2l : c2 ≤ cl) (hxy : x ≤ y) :
    (∑ k in Finset.Ico (iclamp c0 c2 x) (iclamp c0 c2 y), f k)
      + (∑ k in Finset.Ico (iclamp c2 cl x) (iclamp c2 cl y), f k)
      = ∑ k in Finset.Ico (iclamp c0 cl x) (iclamp c0 cl y), f k := by
  rcases le_or_lt y c2 with hy | hy
  · have e1 : iclamp c0 c2 x = iclamp c0 cl x := by unfold iclamp; omega
    have e2 : iclamp c0 c2 y = iclamp c0 cl y := by unfold iclamp; omega
    have e3 : iclamp c2 cl x = iclamp c2 cl y := by unfold iclamp; omega
    rw [e1, e2, e3, Finset.Ico_self, Finset.sum_empty, add_zero]
  · rcases le_or_lt c2 x with hx | hx
    · have e1 : iclamp c0 c2 x = iclamp c0 c2 y := by unfold iclamp; omega
      have e2 : iclamp c2 cl x = iclamp c0 cl x := by unfold iclamp; omega
      have e3 : iclamp c2 cl y = iclamp c0 cl y := by unfold iclamp; omega
      rw [e1, Finset.Ico_self, Finset.sum_empty, zero_add, e2, e3]
    · have e1 : iclamp c0 c2 x = iclamp c0 cl x := by unfold iclamp; omega
      have e2 : iclamp c0 c2 y = c2 := by unfold iclamp; omega
      have e3 : iclamp c2 cl x = c2 := by unfold iclamp; omega
      have e4 : iclamp c2 cl y = iclamp c0 cl y := by unfold iclamp; omega
      rw [e1, e2, e3, e4]
      rw [← Finset.Ico_union_Ico_eq_Ico
        (show iclamp c0 cl x ≤ c2 by unfold iclamp; omega)
        (show c2 ≤ iclamp c0 cl y by unfold iclamp; omega)]
      rw [Finset.sum_union (Finset.Ico_disjoint_Ico_consecutive _ _ _)]

/-- Accumulated sum over a full delivery, when no bin is empty: each bin's
sum grows by the sum of the delivered data lying in its interval. -/
theorem runSlices_sums {o : ℕ → ℤ} {n : ℕ} (fdata : ℤ → ℚ)
    (hmono : ∀ i j, i ≤ j → o i ≤ o j)
    (hstrict : ∀ i, i < n → o i < o (i + 1)) :
    ∀ (cuts : List ℤ) (a : Acc), List.Pairwise (· < ·) cuts →
      (∀ c ∈ cuts, o 0 ≤ c) → (∀ c ∈ cuts, c ≤ o n) →
      ∀ (c0 cl : ℤ), cuts.head? = some c0 → cuts.getLast? = some cl →
      ∀ (b : ℕ), b < n →
      (runSlices o n fdata cuts a).sums b
        = a.sums b + ∑ k in Finset.Ico (iclamp c0 cl (o b))
            (iclamp c0 cl (o (b + 1))), fdata k := by
  intro cuts
  induction cuts with
  | nil => intro a _ _ _ c0 cl h0 hl b hb; simp at h0
  | cons c1 rest ih =>
      intro a hp hlo hhi c0 cl h0 hl b hb
      simp only [List.head?_cons, Option.some_inj] at h0
      have h0' : c0 = c1 := h0.symm
      subst h0'
      cases rest with
      | nil =>
          simp only [List.getLast?_singleton, Option.some_inj] at hl
          subst hl
          show a.sums b = _
          have : iclamp c0 c0 (o b) = iclamp c0 c0 (o (b + 1)) := by
            unfold iclamp; omega
          rw [this, Finset.Ico_self, Finset.sum_empty, add_zero]
      | cons c2 rest' =>
          have hl' : (c2 :: rest').getLast? = some cl := by
            rw [← hl, List.getLast?_cons_cons]
          have h12 : c0 < c2 := (List.pairwise_cons.mp hp).1 c2 (by simp)
          have h2l : c2 ≤ cl :=
            pairwise_le_getLast (List.pairwise_cons.mp hp).2 hl' c2 (by simp)
          show (runSlices o n fdata (c2 :: rest') (integrateStep o n c0 c2 _ a)).sums b = _
          rw [ih (integrateStep o n c0 c2 (fun j => fdata (c0 + j)) a)
            (List.pairwise_cons.mp hp).2
            (fun c hc => hlo c (by simp [hc]))
            (fun c hc => hhi c (by simp [hc]))
            c2 cl (by simp) hl' b hb]
          rw [integrateStep_sums _ _ hmono hstrict (hlo c0 (by simp)) h12
            (hhi c2 (by simp)) hb]
          -- shift the slice-relative data sum to frame-relative indices
          have hshift : ∑ k in Finset.Ico (iclamp c0 c2 (o b) - c0)
              (iclamp c0 c2 (o (b + 1)) - c0), fdata (c0 + k)
              = ∑ k in Finset.Ico (iclamp c0 c2 (o b))
                  (iclamp c0 c2 (o (b + 1))), fdata k := by
            rw [Finset.sum_Ico_add fdata (iclamp c0 c2 (o b) - c0)
              (iclamp c0 c2 (o (b + 1)) - c0) c0]
            have hend1 : iclamp c0 c2 (o b) - c0 + c0 = iclamp c0 c2 (o b) := by
              omega
            have hend2 : iclamp c0 c2 (o (b + 1)) - c0 + c0
                = iclamp c0 c2 (o (b + 1)) := by
              omega
            rw [hend1, hend2]
          rw [hshift, add_assoc]
          congr 1
          exact sum_Ico_clamp_split fdata (le_of_lt h12) h2l
            (hmono b (b + 1) (by omega))

/-! ## Fixed-rate offsets are monotone, with exact endpoints -/

theorem nround_zero : nround 0 = 0 := by
  have h := nround_intCast 0
  simpa using h

theorem fixedOffset_mono {outRate inRate : ℚ} (hout : 0 < outRate)
    (hin : 0 ≤ inRate) :
    ∀ i j, i ≤ j → fixedOffset outRate inRate i ≤ fixedOffset outRate inRate j := by
  intro i j hij
  apply nround_mono
  have hc : (i : ℚ) ≤ (j : ℚ) := by exact_mod_cast hij
  have h1 : (i : ℚ) / outRate ≤ (j : ℚ) / outRate := by
    gcongr
  exact mul_le_mul_of_nonneg_right h1 hin

theorem fixedOffset_zero (outRate inRate : ℚ) :
    fixedOffset outRate inRate 0 = 0 := by
  unfold fixedOffset
  norm_num
  exact nround_zero

theorem fixedOffset_full (M K : ℕ) (hK : 0 < K) :
    fixedOffset (K : ℚ) (M : ℚ) K = M := by
  unfold fixedOffset
  have hKne : (K : ℚ) ≠ 0 := by
    exact_mod_cast hK.ne'
  have harg : (K : ℚ) / K * M = ((M : ℤ) : ℚ) := by
    field_simp
  rw [harg, nround_intCast]

/-- C1: for fixed-rate integration (no phase function) over `M` underlying
input samples producing `K ≤ M` output bins, after the full delivery of the
frame every bin's accumulated count equals `offsets[b+1] - offsets[b]`, and
the counts over all bins sum to exactly `M`. -/
theorem C1_exact_partition (M K : ℕ) (hK : 0 < K) (hKM : K ≤ M)
    (ihData : ℤ → ℚ) (cuts : List ℤ) (hp : List.Pairwise (· < ·) cuts)
    (h0 : cuts.head? = some 0) (hl : cuts.getLast? = some (M : ℤ)) :
    (∀ b, b < K → (frameAcc (fixedOffset K M) 0 K ihData cuts).counts b
        = fixedOffset K M (b + 1) - fixedOffset K M b)
    ∧ ∑ b in Finset.range K,
        (frameAcc (fixedOffset K M) 0 K ihData cuts).counts b = M := by
  have hMpos : 0 < M := lt_of_lt_of_le hK hKM
  have hgmono : ∀ i j, i ≤ j → fixedOffset (K : ℚ) (M : ℚ) i
      ≤ fixedOffset (K : ℚ) (M : ℚ) j :=
    fixedOffset_mono (by exact_mod_cast hK) (by positivity)
  have h00 : fixedOffset (K : ℚ) (M : ℚ) 0 = 0 := fixedOffset_zero _ _
  have ho : ∀ i, frameOffsets (fixedOffset K M) 0 K i = fixedOffset K M i := by
    intro i
    simp [frameOffsets, frameSeekPos, h00]
  have hmono : ∀ i j, i ≤ j → frameOffsets (fixedOffset K M) 0 K i
      ≤ frameOffsets (fixedOffset K M) 0 K j := by
    intro i j hij
    rw [ho, ho]
    exact hgmono i j hij
  have hoK : frameOffsets (fixedOffset K M) 0 K K = M := by
    rw [ho]
    exact fixedOffset_full M K hK
  have ho0 : frameOffsets (fixedOffset K M) 0 K 0 = 0 := by
    rw [ho]
    exact h00
  have hlo : ∀ c ∈ cuts, frameOffsets (fixedOffset K M) 0 K 0 ≤ c := by
    intro c hc
    rw [ho0]
    exact pairwise_head_le hp h0 c hc
  have hhi : ∀ c ∈ cuts, c ≤ frameOffsets (fixedOffset K M) 0 K K := by
    intro c hc
    rw [hoK]
    exact pairwise_le_getLast hp hl c hc
  have hbin : ∀ b, b < K → (frameAcc (fixedOffset K M) 0 K ihData cuts).counts b
      = fixedOffset K M (b + 1) - fixedOffset K M b := by
    intro b hb
    unfold frameAcc
    rw [runSlices_counts _ hmono cuts accZero hp hlo hhi 0 (M : ℤ) h0 hl b hb]
    have hcl1 : iclamp 0 (M : ℤ) (frameOffsets (fixedOffset K M) 0 K (b + 1))
        = fixedOffset K M (b + 1) := by
      have hb1 : (0 : ℤ) ≤ frameOffsets (fixedOffset K M) 0 K (b + 1) := by
        rw [← ho0]
        exact hmono 0 (b + 1) (by omega)
      have hb2 : frameOffsets (fixedOffset K M) 0 K (b + 1) ≤ M := by
        rw [← hoK]
        exact hmono (b + 1) K (by omega)
      rw [← ho]
      unfold iclamp
      omega
    have hcl2 : iclamp 0 (M : ℤ) (frameOffsets (fixedOffset K M) 0 K b)
        = fixedOffset K M b := by
      have hb1 : (0 : ℤ) ≤ frameOffsets (fixedOffset K M) 0 K b := by
        rw [← ho0]
        exact hmono 0 b (by omega)
      have hb2 : frameOffsets (fixedOffset K M) 0 K b ≤ M := by
        rw [← hoK]
        exact hmono b K (by omega)
      rw [← ho]
      unfold iclamp
      omega
    rw [hcl1, hcl2]
    show (0 : ℤ) + _ = _
    ring
  refine ⟨hbin, ?_⟩
  have hsum : ∑ b in Finset.range K,
      (frameAcc (fixedOffset K M) 0 K ihData cuts).counts b
      = ∑ b in Finset.range K,
        (fixedOffset K M (b + 1) - fixedOffset K M b) := by
    apply Finset.sum_congr rfl
    intro b hb
    exact hbin b (Finset.mem_range.mp hb)
  rw [hsum, Finset.sum_range_sub (fun b => fixedOffset K M b) K, h00,
    fixedOffset_full M K hK]
  ring

/-- Concrete instance of `C1_exact_partition`: 10 samples into 3 bins,
delivered as slices `[0, 4)` and `[4, 10)`. -/
theorem C1_exact_partition_witness :
    (∀ b, b < 3 → (frameAcc (fixedOffset 3 10) 0 3 (fun _ => 0) [0, 4, 10]).counts b
        = fixedOffset 3 10 (b + 1) - fixedOffset 3 10 b)
    ∧ ∑ b in Finset.range 3,
        (frameAcc (fixedOffset 3 10) 0 3 (fun _ => 0) [0, 4, 10]).counts b = 10 :=
  C1_exact_partition 10 3 (by norm_num) (by norm_num) (fun _ => 0) [0, 4, 10]
    (by norm_num) rfl rfl

/-! ## C2 : attribution of data elements to bins by one accumulator call -/

/-- The underlying data used in the C2/C5 counterexamples: sample 1 has
value 5, all others value 1. -/
def exData : ℤ → ℚ := fun j => if j = 1 then 5 else 1

theorem exOffsets_vals :
    frameOffsets (fixedOffset 3 2) 0 3 0 = 0
    ∧ frameOffsets (fixedOffset 3 2) 0 3 1 = 1
    ∧ frameOffsets (fixedOffset 3 2) 0 3 2 = 1
    ∧ frameOffsets (fixedOffset 3 2) 0 3 3 = 2 := by
  refine ⟨?_, ?_, ?_, ?_⟩ <;>
    norm_num [frameOffsets, frameSeekPos, fixedOffset, nround]

theorem exSS :
    ssStart (frameOffsets (fixedOffset 3 2) 0 3) 3 0 = 0
    ∧ ssStop (frameOffsets (fixedOffset 3 2) 0 3) 3 2 = 3 := by
  obtain ⟨e0, e1, e2, e3⟩ := exOffsets_vals
  constructor
  · unfold ssStart
    rw [Finset.card_eq_zero, Finset.filter_eq_empty_iff]
    intro i hi
    simp only [Finset.mem_range] at hi
    interval_cases i <;> simp [e1, e2, e3]
  · unfold ssStop
    rw [Finset.filter_true_of_mem, Finset.card_range]
    intro i hi
    simp only [Finset.mem_range] at hi
    interval_cases i <;> simp [e0, e1, e2]

/-- C2 counterexample: a single accumulator call over the full frame
`[0, 2)` of the 2-samples-into-3-bins configuration.  Bin 1 is empty
(`offsets[1] = offsets[2] = 1`), its interval does not intersect the
slice, yet its sum receives the data element at its cut point (value 5)
while its count stays 0; that element is also summed into bin 2, so the
bins' sums total 11 even though the delivered data sums to 6. -/
theorem C2_counterexample :
    frameOffsets (fixedOffset 3 2) 0 3 1 = frameOffsets (fixedOffset 3 2) 0 3 2
    ∧ (frameAcc (fixedOffset 3 2) 0 3 exData [0, 2]).counts 1 = 0
    ∧ (frameAcc (fixedOffset 3 2) 0 3 exData [0, 2]).sums 1 = 5
    ∧ (frameAcc (fixedOffset 3 2) 0 3 exData [0, 2]).sums 0
      + (frameAcc (fixedOffset 3 2) 0 3 exData [0, 2]).sums 1
      + (frameAcc (fixedOffset 3 2) 0 3 exData [0, 2]).sums 2 = 11
    ∧ exData 0 + exData 1 = 6 := by
  obtain ⟨e0, e1, e2, e3⟩ := exOffsets_vals
  obtain ⟨hsa, hsb⟩ := exSS
  have hrun : frameAcc (fixedOffset 3 2) 0 3 exData [0, 2]
      = integrateStep (frameOffsets (fixedOffset 3 2) 0 3) 3 0 2
          (fun j => exData (frameSeekPos (fixedOffset 3 2) 0 3 + (0 + j)))
          accZero := rfl
  refine ⟨by rw [e1, e2], ?_, ?_, ?_, by norm_num [exData]⟩ <;>
  · rw [hrun]
    unfold integrateStep
    simp only [hsa, hsb]
    norm_num [cutIdx, segSum, e0, e1, e2, e3, accZero, exData, frameSeekPos,
      fixedOffset, nround, show Finset.Ico (0:ℤ) 1 = {0} from by decide,
      show Finset.Ico (1:ℤ) 2 = {1} from by decide]

/-- C2 (amended): for every accumulator call with sorted bin edges over a
slice `[s, t)` inside the frame, every bin's count grows by exactly the
length of the intersection of its interval with the slice — in particular
a bin whose interval does not intersect the slice receives zero count —
and, provided no bin in the frame is empty, every bin's sum grows by
exactly the sum of the data elements in that intersection, so every data
element is added into exactly one bin and bins accumulate across calls.
(As `C2_counterexample` shows, the zero-sum-contribution and
exactly-one-bin parts fail for an empty bin strictly inside the slice:
reduceat adds the element at its cut point to the empty bin as well.) -/
theorem C2_amended {o : ℕ → ℤ} {n : ℕ} {s t : ℤ} (data : ℤ → ℚ) (a : Acc)
    (hmono : ∀ i j, i ≤ j → o i ≤ o j) (h0 : o 0 ≤ s) (hst : s < t)
    (hn : t ≤ o n) :
    (∀ b, b < n → (integrateStep o n s t data a).counts b
        = a.counts b + (iclamp s t (o (b + 1)) - iclamp s t (o b)))
    ∧ ((∀ i, i < n → o i < o (i + 1)) → ∀ b, b < n →
        (integrateStep o n s t data a).sums b
          = a.sums b + ∑ k in Finset.Ico (iclamp s t (o b) - s)
              (iclamp s t (o (b + 1)) - s), data k) :=
  ⟨fun b hb => integrateStep_counts data a hmono h0 hst hn hb,
   fun hstrict b hb => integrateStep_sums data a hmono hstrict h0 hst hn hb⟩

/-- Concrete instance of `C2_amended`: three unit-width bins, one call
covering `[0, 3)`. -/
theorem C2_amended_witness :
    (integrateStep (fixedOffset 3 3) 3 0 3 (fun _ => 1) accZero).counts 1
        = accZero.counts 1
          + (iclamp 0 3 (fixedOffset 3 3 2) - iclamp 0 3 (fixedOffset 3 3 1))
    ∧ (integrateStep (fixedOffset 3 3) 3 0 3 (fun _ => 1) accZero).sums 1
        = accZero.sums 1 + ∑ k in Finset.Ico (iclamp 0 3 (fixedOffset 3 3 1) - 0)
            (iclamp 0 3 (fixedOffset 3 3 2) - 0), (1 : ℚ) := by
  have h := @C2_amended (fixedOffset 3 3) 3 0 3 (fun _ => 1) accZero
    (fixedOffset_mono (by norm_num) (by norm_num))
    (by norm_num [fixedOffset, nround]) (by norm_num)
    (by norm_num [fixedOffset, nround])
  have hstrict : ∀ i, i < 3 → fixedOffset 3 3 i < fixedOffset 3 3 (i + 1) := by
    intro i hi
    interval_cases i <;> norm_num [fixedOffset, nround]
  exact ⟨h.1 1 (by norm_num), h.2 hstrict 1 (by norm_num)⟩

/-! ## C5 : averaged output of zero-count bins -/

theorem exAccVals :
    (frameAcc (fixedOffset 3 2) 0 3 exData [0, 2]).counts 0 = 1
    ∧ (frameAcc (fixedOffset 3 2) 0 3 exData [0, 2]).sums 0 = 1
    ∧ (frameAcc (fixedOffset 3 2) 0 3 exData [0, 2]).counts 1 = 0
    ∧ (frameAcc (fixedOffset 3 2) 0 3 exData [0, 2]).sums 1 = 5 := by
  obtain ⟨e0, e1, e2, e3⟩ := exOffsets_vals
  obtain ⟨hsa, hsb⟩ := exSS
  have hrun : frameAcc (fixedOffset 3 2) 0 3 exData [0, 2]
      = integrateStep (frameOffsets (fixedOffset 3 2) 0 3) 3 0 2
          (fun j => exData (frameSeekPos (fixedOffset 3 2) 0 3 + (0 + j)))
          accZero := rfl
  refine ⟨?_, ?_, ?_, ?_⟩ <;>
  · rw [hrun]
    unfold integrateStep
    simp only [hsa, hsb]
    norm_num [cutIdx, segSum, e0, e1, e2, e3, accZero, exData, frameSeekPos,
      fixedOffset, nround, show Finset.Ico (0:ℤ) 1 = {0} from by decide,
      show Finset.Ico (1:ℤ) 2 = {1} from by decide]

/-- C5 counterexample: in the 2-samples-into-3-bins frame delivered as one
slice, bin 1 has accumulated count 0 but accumulated sum 5 (the skipped
empty-bin edge case), so the averaged output is `5 / 0 = +inf`, not NaN as
the claim states for every zero-count bin. -/
theorem C5_counterexample :
    (frameAcc (fixedOffset 3 2) 0 3 exData [0, 2]).counts 1 = 0
    ∧ frameOut (fixedOffset 3 2) 0 3 exData [0, 2] 1 = FloatVal.posInf
    ∧ frameOut (fixedOffset 3 2) 0 3 exData [0, 2] 1 ≠ FloatVal.nan := by
  obtain ⟨_, _, hc1, hs1⟩ := exAccVals
  refine ⟨hc1, ?_, ?_⟩ <;> unfold frameOut <;> rw [hc1, hs1] <;> simp [divCount]

/-- C5 (amended): with `average=True`, a zero-count bin whose accumulated
sum is also zero (the generic empty-bin case) reads NaN; a zero-count bin
with a nonzero positive sum — reachable only through the skipped-empty-bin
edge case — reads +inf; and a bin with nonzero count reads exactly
`sum / count`. -/
theorem C5_average (getOff : ℕ → ℤ) (frameIndex spf : ℕ) (ihData : ℤ → ℚ)
    (cuts : List ℤ) (b : ℕ) :
    ((frameAcc getOff frameIndex spf ihData cuts).counts b = 0 →
      (frameAcc getOff frameIndex spf ihData cuts).sums b = 0 →
      frameOut getOff frameIndex spf ihData cuts b = FloatVal.nan)
    ∧ ((frameAcc getOff frameIndex spf ihData cuts).counts b ≠ 0 →
      frameOut getOff frameIndex spf ihData cuts b
        = FloatVal.val ((frameAcc getOff frameIndex spf ihData cuts).sums b
            / (frameAcc getOff frameIndex spf ihData cuts).counts b))
    ∧ ((frameAcc getOff frameIndex spf ihData cuts).counts b = 0 →
      0 < (frameAcc getOff frameIndex spf ihData cuts).sums b →
      frameOut getOff frameIndex spf ihData cuts b = FloatVal.posInf) := by
  unfold frameOut divCount
  refine ⟨?_, ?_, ?_⟩
  · intro hc hs
    rw [hc, hs]
    norm_num
  · intro hc
    rw [if_neg hc]
  · intro hc hs
    rw [hc, if_pos rfl, if_neg (by linarith), if_pos hs]

/-- Concrete instance of `C5_average`: bin 0 of the counterexample frame
averages to `1 / 1`, and its zero-count nonzero-sum bin 1 reads +inf. -/
theorem C5_average_witness :
    frameOut (fixedOffset 3 2) 0 3 exData [0, 2] 0 = FloatVal.val 1
    ∧ frameOut (fixedOffset 3 2) 0 3 exData [0, 2] 1 = FloatVal.posInf := by
  obtain ⟨hc0, hs0, hc1, hs1⟩ := exAccVals
  constructor
  · rw [(C5_average (fixedOffset 3 2) 0 3 exData [0, 2] 0).2.1 (by rw [hc0]; norm_num),
      hc0, hs0]
    norm_num
  · exact (C5_average (fixedOffset 3 2) 0 3 exData [0, 2] 1).2.2 hc1
      (by rw [hs1]; norm_num)

/-! ## Phase-driven offset resolver (`Integrate._get_offsets` with a phase)

The vectorized loop updates each requested index independently: an index
with a zero step correction is masked out and keeps its offset, an active
index moves by its correction and gets a fresh correction from the phase
function evaluated at its new offset.  The per-index state is a
target/offset/correction triple; `ihPhase` mirrors the `ih_phase` array of
the most recent iteration (the phase values at the active offsets, in
index order).  The phase callable is composed with the affine
index-to-time map, so it is modelled as a function of the underlying
sample index; `scale` is `self.sample_rate * self._ih_mean_sample_per_sample`. -/

structure PhaseItem where
  target : ℚ
  offset : ℤ
  check : ℤ
deriving DecidableEq

structure PhaseLoopState where
  items : List PhaseItem
  ihPhase : List ℚ
deriving DecidableEq

/-- One pass of the `while np.any(mask)` body: `offsets += check`, evaluate
the phase at the active offsets, recompute the active corrections. -/
def phaseIter (p : ℤ → ℚ) (scale : ℚ) (st : PhaseLoopState) : PhaseLoopState :=
  { items := st.items.map (fun it =>
      if it.check = 0 then it
      else ⟨it.target, it.offset + it.check,
        nround ((it.target - p (it.offset + it.check)) * scale)⟩)
    ihPhase := (st.items.filter (fun it => it.check != 0)).map
      (fun it => p (it.offset + it.check)) }

/-- Result of `_get_offsets`: the loop may not terminate within the given
fuel (`timeout` — the source has no iteration cap), may raise (the
`offsets[-1]` subscript of a scalar when the loop body never ran), or
returns the offsets together with the new cross-frame state
`(self._last_offset, self._last_phase)`. -/
inductive OffsetsResult
  | timeout
  | typeError
  | ok (offsets : List ℤ) (lastOffset : ℤ) (lastPhase : ℚ)
deriving DecidableEq

def allConverged (st : PhaseLoopState) : Bool :=
  st.items.all (fun it => it.check == 0)

/-- After the loop: `self._last_offset = offsets[-1]`,
`self._last_phase = ih_phase[-1]`. -/
def finishPhase (st : PhaseLoopState) : OffsetsResult :=
  .ok (st.items.map (fun it => it.offset))
    ((st.items.map (fun it => it.offset)).getLastD 0)
    (st.ihPhase.getLastD 0)

def phaseLoop (p : ℤ → ℚ) (scale : ℚ) : ℕ → PhaseLoopState → OffsetsResult
  | 0, _ => .timeout
  | fuel + 1, st =>
      if allConverged st then finishPhase st
      else phaseLoop p scale fuel (phaseIter p scale st)

/-- Phase branch of `_get_offsets`: seed every offset from the last
resolved offset with a correction estimated from the stored last phase; if
every initial correction is already zero the loop body never runs and the
trailing `offsets[-1]` subscripts a scalar — a runtime error. -/
def getOffsetsPhase (p : ℤ → ℚ) (scale : ℚ) (targets : List ℚ)
    (lastOffset : ℤ) (lastPhase : ℚ) (fuel : ℕ) : OffsetsResult :=
  let init : PhaseLoopState :=
    ⟨targets.map (fun t => ⟨t, lastOffset, nround ((t - lastPhase) * scale)⟩), []⟩
  if allConverged init then .typeError
  else phaseLoop p scale fuel init

/-- `Integrate._get_offsets`: fixed-rate scaling when no phase function is
set (pure — the cross-frame state passes through untouched), and the
fixed-point iteration otherwise, on the target phases
`self._start + samples / self.sample_rate`. -/
def getOffsets (phase? : Option (ℤ → ℚ)) (outRate inRate scale startPhase : ℚ)
    (samples : List ℕ) (lastOffset : ℤ) (lastPhase : ℚ) (fuel : ℕ) :
    OffsetsResult :=
  match phase? with
  | none => .ok (samples.map (fixedOffset outRate inRate)) lastOffset lastPhase
  | some p =>
      getOffsetsPhase p scale
        (samples.map (fun s : ℕ => startPhase + (s : ℚ) / outRate))
        lastOffset lastPhase fuel

/-- C7: in fixed-rate mode (`phase is None`), `_get_offsets` maps every
output-sample index to exactly `round(index / output_rate * input_rate)`,
never fails or loops, and neither reads nor writes the cross-frame state:
the result does not depend on the stored state or the fuel, and the state
is returned unchanged. -/
theorem C7_fixed_rate (outRate inRate scale startPhase : ℚ)
    (samples : List ℕ) (hmono : samples.Chain' (· ≤ ·))
    (lastOffset : ℤ) (lastPhase : ℚ) (fuel : ℕ) :
    getOffsets none outRate inRate scale startPhase samples lastOffset
      lastPhase fuel
      = OffsetsResult.ok
          (samples.map (fun s : ℕ => nround ((s : ℚ) / outRate * inRate)))
          lastOffset lastPhase := rfl

/-- Concrete instance of `C7_fixed_rate`: samples `[0, 1, 2]` at a 2-to-3
rate ratio resolve to `[0, 1, 1]`. -/
theorem C7_fixed_rate_witness :
    getOffsets none 3 2 1 0 [0, 1, 2] 7 (5/2) 0
      = OffsetsResult.ok [0, 1, 1] 7 (5/2) := by
  rw [C7_fixed_rate 3 2 1 0 [0, 1, 2] (by norm_num) 7 (5/2) 0]
  have hf1 : Int.fract ((2 : ℚ)/3) = 2/3 := by
    unfold Int.fract
    norm_num
  have hf2 : Int.fract ((4 : ℚ)/3) = 1/3 := by
    unfold Int.fract
    norm_num
  norm_num [nround, hf1, hf2]

/-- C10: a phase-mode call whose initial rounded step corrections are all
zero (here: one sample whose target phase equals the stored last phase)
raises instead of returning — the loop body never runs, `offsets` is still
the scalar seed, and `offsets[-1]` is a runtime error — for every fuel. -/
theorem C10_error_reachable :
    ∀ fuel : ℕ, getOffsets (some (fun _ => 0)) 1 1 1 0 [0] 0 0 fuel
      = OffsetsResult.typeError := by
  intro fuel
  show getOffsetsPhase _ 1 _ 0 0 fuel = _
  unfold getOffsetsPhase
  rw [if_pos]
  unfold allConverged
  norm_num [nround_zero]

/-! ## C3 : cross-frame state written by the phase resolver -/

/-- Phase function for the C3 counterexample (phase at underlying sample
index): chosen so that the first requested index needs two corrections
while the second converges after one. -/
def exPhase : ℤ → ℚ :=
  fun o => if o = 10 then 5 else if o = 20 then 203/10 else
    if o = 15 then 103/10 else 0

/-- The loop state entered for targets `[10.3, 20.3]` from cross-frame
state `(0, 0)`: initial corrections `[10, 20]`. -/
def exInit : PhaseLoopState :=
  ⟨[⟨103/10, 0, 10⟩, ⟨203/10, 0, 20⟩], []⟩

theorem exFracts :
    Int.fract ((53 : ℚ)/10) = 3/10 ∧ Int.fract ((103 : ℚ)/10) = 3/10
    ∧ Int.fract ((203 : ℚ)/10) = 3/10 := by
  refine ⟨?_, ?_, ?_⟩ <;> (unfold Int.fract; norm_num)

theorem exLoop : phaseLoop exPhase 1 3 exInit
    = OffsetsResult.ok [15, 20] 20 (103/10) := by
  obtain ⟨hfa, hfb, hfc⟩ := exFracts
  have h1 : phaseIter exPhase 1 exInit
      = ⟨[⟨103/10, 10, 5⟩, ⟨203/10, 20, 0⟩], [5, 203/10]⟩ := by
    unfold phaseIter exInit exPhase
    norm_num [nround, hfa]
  have h2 : phaseIter exPhase 1 ⟨[⟨103/10, 10, 5⟩, ⟨203/10, 20, 0⟩], [5, 203/10]⟩
      = ⟨[⟨103/10, 15, 0⟩, ⟨203/10, 20, 0⟩], [103/10]⟩ := by
    unfold phaseIter exPhase
    norm_num [nround_zero]
  show (if allConverged exInit then _
    else phaseLoop exPhase 1 2 (phaseIter exPhase 1 exInit)) = _
  rw [if_neg (by norm_num [allConverged, exInit]), h1]
  show (if allConverged _ then _ else phaseLoop exPhase 1 1 (phaseIter exPhase 1 _)) = _
  rw [if_neg (by norm_num [allConverged]), h2]
  show (if allConverged _ then finishPhase _ else _) = _
  rw [if_pos (by norm_num [allConverged])]
  unfold finishPhase
  norm_num

/-- C3 counterexample: for targets `[10.3, 20.3]` from state `(0, 0)` the
loop converges to offsets `[15, 20]` and stores `last_offset = 20`, but
stores `last_phase = 10.3` — the phase evaluated at offset 15 in the final
iteration (index 0 was the only one still active) — which differs from the
phase at the last element's resolved offset, `phase(20) = 20.3`. -/
theorem C3_counterexample :
    getOffsetsPhase exPhase 1 [103/10, 203/10] 0 0 3
      = OffsetsResult.ok [15, 20] 20 (103/10)
    ∧ exPhase 20 ≠ 103/10 := by
  obtain ⟨hfa, hfb, hfc⟩ := exFracts
  have hinit : (⟨([103/10, 203/10] : List ℚ).map
      (fun t => (⟨t, 0, nround ((t - 0) * 1)⟩ : PhaseItem)), []⟩ : PhaseLoopState)
      = exInit := by
    unfold exInit
    norm_num [nround, hfb, hfc]
  constructor
  · unfold getOffsetsPhase
    rw [hinit, if_neg (by norm_num [allConverged, exInit])]
    exact exLoop
  · norm_num [exPhase]

/-- Default item used to state positional facts about the loop arrays. -/
def defItem : PhaseItem := ⟨0, 0, 0⟩

theorem getD_map_item (f : PhaseItem → PhaseItem) (hf : f defItem = defItem) :
    ∀ (l : List PhaseItem) (i : ℕ), (l.map f).getD i defItem = f (l.getD i defItem)
  | [], i => by simp [hf]
  | x :: xs, 0 => by simp
  | x :: xs, i + 1 => by
      simp only [List.map_cons, List.getD_cons_succ]
      exact getD_map_item f hf xs i

/-- C3 (amended): the fixed-point loop repeats only for indices whose
rounded correction is non-zero — a converged index keeps its offset and
stays converged, an active index moves by its correction and is
re-evaluated — and it returns only once every correction is zero.  On
return the cross-frame state holds the last requested element's resolved
offset, and the stored phase is the last entry of the final iteration's
`ih_phase` array: the phase at the resolved offset of the highest-index
element that was still active in that iteration, which (as
`C3_counterexample` shows) need not be the phase at the last element's
offset. -/
theorem C3_loop_state (p : ℤ → ℚ) (scale : ℚ) :
    (∀ (st : PhaseLoopState) (i : ℕ),
      ((st.items.getD i defItem).check = 0 →
        (phaseIter p scale st).items.getD i defItem = st.items.getD i defItem)
      ∧ ((st.items.getD i defItem).check ≠ 0 →
        (phaseIter p scale st).items.getD i defItem
          = ⟨(st.items.getD i defItem).target,
              (st.items.getD i defItem).offset + (st.items.getD i defItem).check,
              nround (((st.items.getD i defItem).target
                - p ((st.items.getD i defItem).offset
                  + (st.items.getD i defItem).check)) * scale)⟩))
    ∧ (∀ (fuel : ℕ) (st : PhaseLoopState) (offs : List ℤ) (lo : ℤ) (lp : ℚ),
        phaseLoop p scale fuel st = .ok offs lo lp →
        ∃ st2 : PhaseLoopState, allConverged st2 = true
          ∧ offs = st2.items.map (fun it => it.offset)
          ∧ lo = offs.getLastD 0
          ∧ lp = st2.ihPhase.getLastD 0
          ∧ (st2 = st ∨ ∃ st1, allConverged st1 = false
              ∧ st2 = phaseIter p scale st1
              ∧ lp = ((st1.items.filter (fun it => it.check != 0)).map
                  (fun it => p (it.offset + it.check))).getLastD 0)) := by
  constructor
  · intro st i
    have hiter : (phaseIter p scale st).items.getD i defItem
        = (fun it : PhaseItem => if it.check = 0 then it
            else ⟨it.target, it.offset + it.check,
              nround ((it.target - p (it.offset + it.check)) * scale)⟩)
          (st.items.getD i defItem) := by
      apply getD_map_item
      norm_num [defItem]
    constructor
    · intro hc
      exact hiter.trans (if_pos hc)
    · intro hc
      rw [hiter]
      simp only [if_neg hc]
  · intro fuel
    induction fuel with
    | zero =>
        intro st offs lo lp h
        exact absurd h (by simp [phaseLoop])
    | succ fuel ih =>
        intro st offs lo lp h
        unfold phaseLoop at h
        by_cases hconv : allConverged st
        · rw [if_pos hconv] at h
          unfold finishPhase at h
          injection h with h1 h2 h3
          refine ⟨st, hconv, h1.symm, ?_, h3.symm, Or.inl rfl⟩
          rw [← h2, h1]
        · rw [if_neg hconv] at h
          obtain ⟨st2, hc2, hoffs, hlo, hlp, hd⟩ := ih (phaseIter p scale st) offs lo lp h
          refine ⟨st2, hc2, hoffs, hlo, hlp, Or.inr ?_⟩
          rcases hd with rfl | ⟨st1, hc1, rfl, hlp1⟩
          · exact ⟨st, by simpa using hconv, rfl, by rw [hlp]; rfl⟩
          · exact ⟨st1, hc1, rfl, hlp1⟩

/-- Concrete instance of `C3_loop_state`: the final state of the
counterexample run satisfies the amended description. -/
theorem C3_loop_state_witness :
    ∃ st2 : PhaseLoopState, allConverged st2 = true
      ∧ ([15, 20] : List ℤ) = st2.items.map (fun it => it.offset)
      ∧ (20 : ℤ) = ([15, 20] : List ℤ).getLastD 0
      ∧ (103/10 : ℚ) = st2.ihPhase.getLastD 0
      ∧ (st2 = exInit ∨ ∃ st1, allConverged st1 = false
          ∧ st2 = phaseIter exPhase 1 st1
          ∧ (103/10 : ℚ) = ((st1.items.filter (fun it => it.check != 0)).map
              (fun it => exPhase (it.offset + it.check))).getLastD 0) :=
  (C3_loop_state exPhase 1).2 3 exInit [15, 20] 20 (103/10) exLoop

/-! ## C6 : monotonicity of the resolved offsets and the seek position -/

theorem nround_one : nround 1 = 1 := by
  have h := nround_intCast 1
  simpa using h

theorem nround_negTwo : nround (-2) = -2 := by
  have h := nround_intCast (-2)
  simpa using h

/-- Phase function for the C6 counterexample: an overshooting first
correction makes the second element resolve below the first. -/
def exPhaseDec : ℤ → ℚ :=
  fun o => if o = 1 then 17/5 else if o = -1 then 7/5 else 0

/-- C6 counterexample: a phase-mode frame (samples `[0, 1]` of frame 0,
fresh state `last_offset = 0`, `last_phase = start = 0.4`) resolves to the
offsets `[0, -1]`, which are not non-decreasing. -/
theorem C6_counterexample :
    getOffsets (some exPhaseDec) 1 1 1 (2/5) [0, 1] 0 (2/5) 3
      = OffsetsResult.ok [0, -1] (-1) (7/5)
    ∧ ¬ List.Chain' (· ≤ ·) ([0, -1] : List ℤ) := by
  constructor
  · show getOffsetsPhase exPhaseDec 1 _ 0 (2/5) 3 = _
    have htargets : (([0, 1] : List ℕ).map
        (fun s : ℕ => (2/5 : ℚ) + (s : ℚ) / 1)) = [2/5, 7/5] := by
      norm_num
    rw [htargets]
    have hinit : (([2/5, 7/5] : List ℚ).map
        (fun t => (⟨t, 0, nround ((t - 2/5) * 1)⟩ : PhaseItem)), ([] : List ℚ))
        = (([⟨2/5, 0, 0⟩, ⟨7/5, 0, 1⟩] : List PhaseItem), ([] : List ℚ)) := by
      norm_num [nround_zero, nround_one]
    unfold getOffsetsPhase
    rw [show (⟨([2/5, 7/5] : List ℚ).map
        (fun t => (⟨t, 0, nround ((t - 2/5) * 1)⟩ : PhaseItem)), []⟩ : PhaseLoopState)
      = (⟨[⟨2/5, 0, 0⟩, ⟨7/5, 0, 1⟩], []⟩ : PhaseLoopState) from by
        rw [PhaseLoopState.mk.injEq]
        constructor
        · exact congrArg Prod.fst hinit
        · rfl]
    rw [if_neg (by norm_num [allConverged])]
    have h1 : phaseIter exPhaseDec 1 ⟨[⟨2/5, 0, 0⟩, ⟨7/5, 0, 1⟩], []⟩
        = ⟨[⟨2/5, 0, 0⟩, ⟨7/5, 1, -2⟩], [17/5]⟩ := by
      unfold phaseIter exPhaseDec
      norm_num [nround_negTwo]
    have h2 : phaseIter exPhaseDec 1 ⟨[⟨2/5, 0, 0⟩, ⟨7/5, 1, -2⟩], [17/5]⟩
        = ⟨[⟨2/5, 0, 0⟩, ⟨7/5, -1, 0⟩], [7/5]⟩ := by
      unfold phaseIter exPhaseDec
      norm_num [nround_zero]
    show (if allConverged _ then _ else phaseLoop exPhaseDec 1 2 (phaseIter exPhaseDec 1 _)) = _
    rw [if_neg (by norm_num [allConverged]), h1]
    show (if allConverged _ then _ else phaseLoop exPhaseDec 1 1 (phaseIter exPhaseDec 1 _)) = _
    rw [if_neg (by norm_num [allConverged]), h2]
    show (if allConverged _ then finishPhase _ else _) = _
    rw [if_pos (by norm_num [allConverged])]
    unfold finishPhase
    norm_num
  · norm_num [List.chain'_cons]

/-- C6 (amended): in fixed-rate mode the frame's resolved offsets are
monotonically non-decreasing (rounding of a monotone sequence); in phase
mode this can fail (`C6_counterexample`).  In every mode the frame's first
raw offset is exactly the absolute underlying position sought before
reading, so the normalized first offset is 0. -/
theorem C6_offsets (outRate inRate : ℚ) (hout : 0 < outRate) (hin : 0 ≤ inRate)
    (frameIndex spf : ℕ) :
    (∀ i j, i ≤ j →
      frameOffsets (fixedOffset outRate inRate) frameIndex spf i
        ≤ frameOffsets (fixedOffset outRate inRate) frameIndex spf j)
    ∧ (∀ getOff : ℕ → ℤ,
        getOff (frameIndex * spf + 0) = frameSeekPos getOff frameIndex spf
        ∧ frameOffsets getOff frameIndex spf 0 = 0) := by
  constructor
  · intro i j hij
    unfold frameOffsets
    have := fixedOffset_mono hout hin (frameIndex * spf + i) (frameIndex * spf + j)
      (by omega)
    omega
  · intro getOff
    constructor
    · show getOff (frameIndex * spf + 0) = getOff (frameIndex * spf)
      norm_num
    · unfold frameOffsets frameSeekPos
      norm_num

/-- Concrete instance of `C6_offsets`: the 10-into-3 frame has
non-decreasing offsets at consecutive edges, and its first offset equals
the seek position. -/
theorem C6_offsets_witness :
    frameOffsets (fixedOffset 3 10) 0 3 1 ≤ frameOffsets (fixedOffset 3 10) 0 3 2
    ∧ fixedOffset 3 10 (0 * 3 + 0) = frameSeekPos (fixedOffset 3 10) 0 3 :=
  ⟨(C6_offsets 3 10 (by norm_num) (by norm_num) 0 3).1 1 2 (by norm_num),
   ((C6_offsets 3 10 (by norm_num) (by norm_num) 0 3).2 (fixedOffset 3 10)).1⟩

/-! ## Fold (`Fold._integrate`)

The 2-D (time-sub-bin × phase-bin) buffers are functions of the two
indices.  The phase callable composed with the affine raw-index-to-time
map is a function of the frame-relative raw sample index. -/

structure Acc2 where
  sums : ℕ → ℕ → ℚ
  counts : ℕ → ℕ → ℤ

def acc2Zero : Acc2 := ⟨fun _ _ => 0, fun _ _ => 0⟩

/-- `((phases * n_phase) % n_phase).astype(int)` for one raw sample:
float `%` is `q - n * floor(q / n)`, and the truncating cast is a floor on
the non-negative remainder. -/
def phaseBin (p : ℤ → ℚ) (nPhase : ℕ) (i : ℤ) : ℕ :=
  (⌊p i * nPhase - nPhase * ⌊p i * nPhase / nPhase⌋⌋).toNat

/-- The time-sub-bin of a raw sample: 0 when `samples_per_frame == 1`,
otherwise `np.searchsorted(self._offsets[1:], raw_item)`. -/
def foldSampleIdx (o : ℕ → ℤ) (spf : ℕ) (r : ℤ) : ℕ :=
  if spf = 1 then 0
  else ((Finset.range spf).filter fun i => o (i + 1) < r).card

/-- `np.add.at(self._result, (sample_index, phase_index), raw)` and the
corresponding count update: indexed accumulation, element by element. -/
def scatterAdd (nPhase : ℕ) (p : ℤ → ℚ) (o : ℕ → ℤ) (spf : ℕ) (raw : ℤ → ℚ) :
    List ℤ → Acc2 → Acc2
  | [], a => a
  | r :: rest, a =>
      scatterAdd nPhase p o spf raw rest
        ⟨fun u v => if u = foldSampleIdx o spf r ∧ v = phaseBin p nPhase r
            then a.sums u v + raw r else a.sums u v,
         fun u v => if u = foldSampleIdx o spf r ∧ v = phaseBin p nPhase r
            then a.counts u v + 1 else a.counts u v⟩

/-- `Fold._integrate` on the slice `[s, t)`: scatter-add every raw sample
of `raw_items = np.arange(item.start, item.stop)`. -/
def foldIntegrate (nPhase : ℕ) (p : ℤ → ℚ) (o : ℕ → ℤ) (spf : ℕ)
    (s t : ℤ) (raw : ℤ → ℚ) (a : Acc2) : Acc2 :=
  scatterAdd nPhase p o spf raw
    ((List.range (t - s).toNat).map (fun k : ℕ => s + (k : ℤ))) a

theorem phaseBin_eq (p : ℤ → ℚ) {n : ℕ} (hn : 0 < n) (i : ℤ) :
    phaseBin p n i = (⌊Int.fract (p i) * n⌋).toNat ∧ phaseBin p n i < n := by
  have hne : (n : ℚ) ≠ 0 := Nat.cast_ne_zero.mpr hn.ne'
  have hdiv : p i * n / n = p i := by field_simp
  have harg : p i * n - n * ⌊p i * n / n⌋ = Int.fract (p i) * n := by
    rw [hdiv]
    unfold Int.fract
    ring
  have hmain : phaseBin p n i = (⌊Int.fract (p i) * n⌋).toNat := by
    unfold phaseBin
    rw [harg]
  refine ⟨hmain, ?_⟩
  rw [hmain]
  have h1 : Int.fract (p i) * n < n := by
    have hlt := mul_lt_mul_of_pos_right (Int.fract_lt_one (p i))
      (show (0 : ℚ) < n by positivity)
    simpa using hlt
  have h2 : (0 : ℚ) ≤ Int.fract (p i) * n :=
    mul_nonneg (Int.fract_nonneg _) (by positivity)
  have h3 : ⌊Int.fract (p i) * n⌋ < (n : ℤ) := by
    rw [Int.floor_lt]
    push_cast
    exact h1
  have h4 : 0 ≤ ⌊Int.fract (p i) * n⌋ := Int.floor_nonneg.mpr h2
  omega

theorem scatterAdd_eq (nPhase : ℕ) (p : ℤ → ℚ) (o : ℕ → ℤ) (spf : ℕ)
    (raw : ℤ → ℚ) :
    ∀ (items : List ℤ) (a : Acc2) (u v : ℕ),
      (scatterAdd nPhase p o spf raw items a).counts u v
        = a.counts u v + items.countP
            (fun r => foldSampleIdx o spf r == u && (phaseBin p nPhase r == v))
      ∧ (scatterAdd nPhase p o spf raw items a).sums u v
        = a.sums u v + ((items.filter
            (fun r => foldSampleIdx o spf r == u
              && (phaseBin p nPhase r == v))).map raw).sum
  | [], a, u, v => by simp [scatterAdd]
  | r :: rest, a, u, v => by
      obtain ⟨ihc, ihs⟩ := scatterAdd_eq nPhase p o spf raw rest
        ⟨fun x y => if x = foldSampleIdx o spf r ∧ y = phaseBin p nPhase r
            then a.sums x y + raw r else a.sums x y,
         fun x y => if x = foldSampleIdx o spf r ∧ y = phaseBin p nPhase r
            then a.counts x y + 1 else a.counts x y⟩ u v
      constructor
      · show (scatterAdd nPhase p o spf raw rest _).counts u v = _
        rw [ihc]
        dsimp only
        by_cases hm : foldSampleIdx o spf r = u ∧ phaseBin p nPhase r = v
        · have hb : (foldSampleIdx o spf r == u
              && (phaseBin p nPhase r == v)) = true := by
            simp [hm.1, hm.2]
          rw [List.countP_cons_of_pos (fun x => foldSampleIdx o spf x == u && (phaseBin p nPhase x == v)) rest hb]
          simp only [hm.1, hm.2, and_self, if_true]
          push_cast
          ring
        · have hb : (foldSampleIdx o spf r == u
              && (phaseBin p nPhase r == v)) = false := by
            rcases not_and_or.mp hm with hx | hx <;> simp [hx]
          have hbn : ¬ (foldSampleIdx o spf r == u
              && (phaseBin p nPhase r == v)) = true := by
            rw [hb]
            exact Bool.false_ne_true
          rw [List.countP_cons_of_neg (fun x => foldSampleIdx o spf x == u && (phaseBin p nPhase x == v)) rest hbn]
          have hx : ¬ (u = foldSampleIdx o spf r ∧ v = phaseBin p nPhase r) := by
            intro hcon
            exact hm ⟨hcon.1.symm, hcon.2.symm⟩
          simp only [if_neg hx]
      · show (scatterAdd nPhase p o spf raw rest _).sums u v = _
        rw [ihs]
        dsimp only
        by_cases hm : foldSampleIdx o spf r = u ∧ phaseBin p nPhase r = v
        · have hb : (foldSampleIdx o spf r == u
              && (phaseBin p nPhase r == v)) = true := by
            simp [hm.1, hm.2]
          rw [@List.filter_cons_of_pos ℤ (fun x => foldSampleIdx o spf x == u && (phaseBin p nPhase x == v)) r rest hb]
          simp only [hm.1, hm.2, and_self, if_true, List.map_cons, List.sum_cons]
          ring
        · have hb : (foldSampleIdx o spf r == u
              && (phaseBin p nPhase r == v)) = false := by
            rcases not_and_or.mp hm with hx | hx <;> simp [hx]
          have hbn : ¬ (foldSampleIdx o spf r == u
              && (phaseBin p nPhase r == v)) = true := by
            rw [hb]
            exact Bool.false_ne_true
          rw [@List.filter_cons_of_neg ℤ (fun x => foldSampleIdx o spf x == u && (phaseBin p nPhase x == v)) r rest hbn]
          have hx : ¬ (u = foldSampleIdx o spf r ∧ v = phaseBin p nPhase r) := by
            intro hcon
            exact hm ⟨hcon.1.symm, hcon.2.symm⟩
          simp only [if_neg hx]

theorem phaseBin_const_val : ∀ r : ℤ, phaseBin (fun _ => (3 : ℚ)/5) 4 r = 2 := by
  intro r
  unfold phaseBin
  norm_num
  decide

theorem foldSampleIdx_one (o : ℕ → ℤ) : ∀ r : ℤ, foldSampleIdx o 1 r = 0 := by
  intro r
  unfold foldSampleIdx
  norm_num

/-- C8: in every Fold frame, each raw sample's phase is reduced to the
phase-bin index `⌊fract(phase) * n_phase⌋ ∈ [0, n_phase)`; samples are
accumulated (never overwritten) into the (time-sub-bin × phase-bin)
buffers — after a scatter-add each cell holds its previous contents plus
the count (resp. data sum) of exactly the raw samples mapping to it; and
concretely a constant phase giving bin 2 for all 5 samples of a frame with
`n_phase = 4` yields count 5 in phase bin 2 and 0 in every other bin. -/
theorem C8_fold_scatter (nPhase : ℕ) (hn : 0 < nPhase) (p : ℤ → ℚ)
    (o : ℕ → ℤ) (spf : ℕ) (raw : ℤ → ℚ) :
    (∀ i : ℤ, phaseBin p nPhase i = (⌊Int.fract (p i) * nPhase⌋).toNat
        ∧ phaseBin p nPhase i < nPhase)
    ∧ (∀ (items : List ℤ) (a : Acc2) (u v : ℕ),
        (scatterAdd nPhase p o spf raw items a).counts u v
          = a.counts u v + items.countP
              (fun x => foldSampleIdx o spf x == u && (phaseBin p nPhase x == v))
        ∧ (scatterAdd nPhase p o spf raw items a).sums u v
          = a.sums u v + ((items.filter
              (fun x => foldSampleIdx o spf x == u
                && (phaseBin p nPhase x == v))).map raw).sum)
    ∧ ((foldIntegrate 4 (fun _ => (3 : ℚ)/5) o 1 0 5 raw acc2Zero).counts 0 2 = 5
        ∧ ∀ v, v < 4 → v ≠ 2 →
          (foldIntegrate 4 (fun _ => (3 : ℚ)/5) o 1 0 5 raw acc2Zero).counts 0 v
            = 0) := by
  refine ⟨fun i => phaseBin_eq p hn i,
    fun items a u v => scatterAdd_eq nPhase p o spf raw items a u v, ?_, ?_⟩
  · have h5 : ((5 : ℤ) - 0).toNat = 5 := rfl
    have hitems : ((List.range ((5 : ℤ) - 0).toNat).map
        (fun k : ℕ => (0 : ℤ) + (k : ℤ))) = [0, 1, 2, 3, 4] := by
      rw [h5]
      norm_num [List.range_succ]
    unfold foldIntegrate
    rw [hitems,
      (scatterAdd_eq 4 (fun _ => (3 : ℚ)/5) o 1 raw [0, 1, 2, 3, 4] acc2Zero 0 2).1]
    simp [acc2Zero, List.countP_cons, phaseBin_const_val, foldSampleIdx_one]
  · intro v hv4 hv2
    have h5 : ((5 : ℤ) - 0).toNat = 5 := rfl
    have hitems : ((List.range ((5 : ℤ) - 0).toNat).map
        (fun k : ℕ => (0 : ℤ) + (k : ℤ))) = [0, 1, 2, 3, 4] := by
      rw [h5]
      norm_num [List.range_succ]
    unfold foldIntegrate
    rw [hitems,
      (scatterAdd_eq 4 (fun _ => (3 : ℚ)/5) o 1 raw [0, 1, 2, 3, 4] acc2Zero 0 v).1]
    have hne : (2 : ℕ) ≠ v := fun hc => hv2 hc.symm
    simp [acc2Zero, List.countP_cons, phaseBin_const_val, foldSampleIdx_one, hne]

/-- Concrete instance of `C8_fold_scatter`: the 5-sample constant-phase
frame puts count 5 into phase bin 2 and 0 into bin 0. -/
theorem C8_fold_scatter_witness :
    (foldIntegrate 4 (fun _ => (3 : ℚ)/5) (fun _ => 0) 1 0 5 (fun _ => 1)
      acc2Zero).counts 0 2 = 5
    ∧ (foldIntegrate 4 (fun _ => (3 : ℚ)/5) (fun _ => 0) 1 0 5 (fun _ => 1)
      acc2Zero).counts 0 0 = 0 :=
  ⟨(C8_fold_scatter 4 (by norm_num) (fun _ => (3 : ℚ)/5) (fun _ => 0) 1
      (fun _ => 1)).2.2.1,
   (C8_fold_scatter 4 (by norm_num) (fun _ => (3 : ℚ)/5) (fun _ => 0) 1
      (fun _ => 1)).2.2.2 0 (by norm_num) (by norm_num)⟩

/-! ## Stack (`Stack.__init__`, `Stack._read_frame`, `Stack.stop_time`)

`Stack` composes an `Integrate` with step `u.cycle / n_phase` and
`samples_per_frame * n_phase` bins per frame, reads its frame
representation directly, and reshapes every `n_phase` consecutive narrow
phase bins into one pulse-profile row. -/

/-- Reshape to rows of `n` consecutive elements
(`.reshape((-1, n) + sample_shape)`). -/
def chunkList {α : Type} : ℕ → List α → List (List α)
  | _, [] => []
  | 0, l => [l]
  | n + 1, x :: xs => (x :: xs.take n) :: chunkList (n + 1) (xs.drop n)
termination_by _ l => l.length
decreasing_by
  simp only [List.length_drop, List.length_cons]
  omega

/-- One finalized frame of an `Integrate`, as the list of its output bins. -/
def integrateFrameList (getOff : ℕ → ℤ) (frameIndex spf : ℕ) (ihData : ℤ → ℚ)
    (cuts : List ℤ) : List FloatVal :=
  (List.range spf).map (frameOut getOff frameIndex spf ihData cuts)

/-- `Stack._read_frame`: the composed Integrate's frame (with
`spf * n_phase` narrow bins), reshaped into `spf` pulse-profile rows. -/
def stackReadFrame (nPhase spf frameIndex : ℕ) (getOff : ℕ → ℤ)
    (ihData : ℤ → ℚ) (cuts : List ℤ) : List (List FloatVal) :=
  chunkList nPhase (integrateFrameList getOff frameIndex (spf * nPhase) ihData cuts)

/-- The composed Integrate's full output over `F` frames (its `read()`),
with a per-frame slice delivery `cutsF`. -/
def integrateOutput (getOff : ℕ → ℤ) (spf : ℕ) (ihData : ℤ → ℚ)
    (cutsF : ℕ → List ℤ) (F : ℕ) : List FloatVal :=
  ((List.range F).map
    (fun f => integrateFrameList getOff f spf ihData (cutsF f))).flatten

/-- Stack's full output over `F` frames, rows concatenated. -/
def stackOutput (nPhase spf : ℕ) (getOff : ℕ → ℤ) (ihData : ℤ → ℚ)
    (cutsF : ℕ → List ℤ) (F : ℕ) : List (List FloatVal) :=
  ((List.range F).map
    (fun f => stackReadFrame nPhase spf f getOff ihData (cutsF f))).flatten

/-- The spec's formula, stated in its own words:
`Integrate(stream, period/n_phase).read().reshape((-1, n_phase) + shape)`. -/
def specStackOutput (nPhase spf : ℕ) (getOff : ℕ → ℤ) (ihData : ℤ → ℚ)
    (cutsF : ℕ → List ℤ) (F : ℕ) : List (List FloatVal) :=
  chunkList nPhase (integrateOutput getOff (spf * nPhase) ihData cutsF F)

/-- `Integrate.stop_time`: seek the underlying stream to
`self._get_offsets(self.shape[0])` and report its time there. -/
def integrateStopTime (ihTime : ℤ → ℚ) (getOff : ℕ → ℤ) (shape0 : ℕ) : ℚ :=
  ihTime (getOff shape0)

/-- `Stack.stop_time`: inherited unchanged from the composed Integrate. -/
def stackStopTime (ihTime : ℤ → ℚ) (getOff : ℕ → ℤ) (shape0 : ℕ) : ℚ :=
  integrateStopTime ihTime getOff shape0

theorem chunkList_nil {α : Type} (n : ℕ) : chunkList n ([] : List α) = [] := by
  cases n <;> rw [chunkList]

theorem chunkList_cons {α : Type} (n : ℕ) (x : α) (l : List α) :
    chunkList (n + 1) (x :: l) = (x :: l.take n) :: chunkList (n + 1) (l.drop n) := by
  rw [chunkList]

theorem chunkList_append {α : Type} (n : ℕ) :
    ∀ (m : ℕ) (xs ys : List α), xs.length = (n + 1) * m →
      chunkList (n + 1) (xs ++ ys) = chunkList (n + 1) xs ++ chunkList (n + 1) ys := by
  intro m
  induction m with
  | zero =>
      intro xs ys h
      have hxs : xs = [] := List.eq_nil_of_length_eq_zero (by omega)
      subst hxs
      rw [List.nil_append, chunkList_nil, List.nil_append]
  | succ m ih =>
      intro xs ys h
      rcases xs with _ | ⟨x, tail⟩
      · simp at h
      · have hexp : (n + 1) * (m + 1) = (n + 1) * m + n + 1 := by ring
        have hlen : tail.length = n + (n + 1) * m := by
          simp only [List.length_cons] at h
          omega
        have htake : (tail ++ ys).take n = tail.take n :=
          List.take_append_of_le_length (by omega)
        have hdrop : (tail ++ ys).drop n = tail.drop n ++ ys :=
          List.drop_append_of_le_length (by omega)
        rw [List.cons_append, chunkList_cons, htake, hdrop,
          ih (tail.drop n) ys (by simp only [List.length_drop]; omega),
          chunkList_cons, List.cons_append]

/-- C9: for every number of frames, Stack's output equals the composed
Integrate's output (step = one `n_phase`-th of a cycle, `spf * n_phase`
bins per frame) reshaped so that every `n_phase` consecutive narrow phase
bins form one pulse-profile row, bin for bin; and Stack's reported stop
time is the composed Integrate's stop time unchanged. -/
theorem C9_stack_refines (nPhase spf : ℕ) (hn : 0 < nPhase) (getOff : ℕ → ℤ)
    (ihData : ℤ → ℚ) (cutsF : ℕ → List ℤ) (ihTime : ℤ → ℚ) (shape0 : ℕ) :
    (∀ F : ℕ, stackOutput nPhase spf getOff ihData cutsF F
      = specStackOutput nPhase spf getOff ihData cutsF F)
    ∧ stackStopTime ihTime getOff shape0
      = integrateStopTime ihTime getOff shape0 := by
  obtain ⟨n, rfl⟩ : ∃ n, nPhase = n + 1 := ⟨nPhase - 1, by omega⟩
  constructor
  · intro F
    induction F with
    | zero =>
        show List.flatten (List.map _ (List.range 0))
          = chunkList (n + 1) (List.flatten (List.map _ (List.range 0)))
        rw [List.range_zero, List.map_nil, List.map_nil, List.flatten_nil,
          List.flatten_nil, chunkList_nil]
    | succ F ihF =>
        unfold stackOutput specStackOutput integrateOutput
        rw [List.range_succ, List.map_append, List.map_append,
          List.flatten_append, List.flatten_append]
        unfold stackOutput specStackOutput integrateOutput at ihF
        rw [ihF]
        have hlen : (((List.range F).map
            (fun f => integrateFrameList getOff f (spf * (n + 1)) ihData
              (cutsF f))).flatten).length = (n + 1) * (F * spf) := by
          rw [List.length_flatten]
          have hmap : ((List.range F).map
              (fun f => integrateFrameList getOff f (spf * (n + 1)) ihData
                (cutsF f))).map List.length
              = (List.range F).map (fun _ => spf * (n + 1)) := by
            rw [List.map_map]
            apply List.map_congr_left
            intro f _
            show (integrateFrameList getOff f (spf * (n + 1)) ihData (cutsF f)).length = _
            unfold integrateFrameList
            rw [List.length_map, List.length_range]
          rw [hmap, List.map_const', List.sum_replicate, List.length_range,
            smul_eq_mul]
          ring
        rw [chunkList_append n (F * spf) _ _ hlen]
        simp only [List.map_cons, List.map_nil, List.flatten_cons,
          List.flatten_nil, List.append_nil]
        rfl
  · rfl

/-- Concrete instance of `C9_stack_refines`: two frames of two profiles of
two phase bins. -/
theorem C9_stack_refines_witness :
    stackOutput 2 2 (fixedOffset 4 8) exData (fun _ => [0, 8]) 2
      = specStackOutput 2 2 (fixedOffset 4 8) exData (fun _ => [0, 8]) 2 :=
  (C9_stack_refines 2 2 (by norm_num) (fixedOffset 4 8) exData
    (fun _ => [0, 8]) (fun _ => 0) 0).1 2

/-! ## C4 : termination of the phase fixed-point iteration

`errQ` is the scaled phase residual whose rounding is the step
correction.  `SmoothPhase p scale δ` renders the spec's "locally
monotonic and smooth relative to one input sample's phase increment":
every underlying sample advances the scaled phase by at least `δ > 0`
(monotonic, bounded variation) and by at most one sample's worth (no
overshoot past the mean rate). -/

def errQ (p : ℤ → ℚ) (scale t : ℚ) (o : ℤ) : ℚ := (t - p o) * scale

def SmoothPhase (p : ℤ → ℚ) (scale δ : ℚ) : Prop :=
  ∀ o : ℤ, δ ≤ (p (o + 1) - p o) * scale ∧ (p (o + 1) - p o) * scale ≤ 1

theorem phase_gain_bounds {p : ℤ → ℚ} {scale δ : ℚ}
    (hs : SmoothPhase p scale δ) (o : ℤ) :
    ∀ n : ℕ, δ * n ≤ (p (o + n) - p o) * scale
      ∧ (p (o + n) - p o) * scale ≤ n := by
  intro n
  induction n with
  | zero => norm_num
  | succ n ih =>
      obtain ⟨ih1, ih2⟩ := ih
      obtain ⟨h1, h2⟩ := hs (o + n)
      have hco : o + ((n + 1 : ℕ) : ℤ) = o + (n : ℤ) + 1 := by
        push_cast
        ring
      rw [hco]
      have hdec : (p (o + (n : ℤ) + 1) - p o) * scale
          = (p (o + (n : ℤ) + 1) - p (o + (n : ℤ))) * scale
            + (p (o + (n : ℤ)) - p o) * scale := by
        ring
      rw [hdec]
      push_cast
      constructor <;> linarith

/-- One active step of the iteration either converges the index or
shrinks the absolute residual by at least `δ`. -/
theorem step_err_decrease {p : ℤ → ℚ} {scale δ : ℚ} (hδ : 0 < δ)
    (hs : SmoothPhase p scale δ) (t : ℚ) (o : ℤ)
    (hcne : nround (errQ p scale t o) ≠ 0) :
    nround (errQ p scale t (o + nround (errQ p scale t o))) = 0
    ∨ |errQ p scale t (o + nround (errQ p scale t o))|
        ≤ |errQ p scale t o| - δ := by
  set c := nround (errQ p scale t o) with hc
  set e := errQ p scale t o with he
  have hb1 : e - 1/2 ≤ (c : ℚ) := le_nround e
  have hb2 : (c : ℚ) ≤ e + 1/2 := nround_le e
  have hnz : e < -(1/2) ∨ 1/2 < e := by
    by_contra hcon
    push_neg at hcon
    exact hcne ((nround_eq_zero_iff e).mpr ⟨hcon.1, hcon.2⟩)
  rcases lt_trichotomy c 0 with hcneg | hczero | hcpos
  · -- c ≤ -1, so e < -1/2: the offset moves left by m = -c samples
    have hm1 : (1 : ℤ) ≤ -c := by omega
    set m : ℕ := (-c).toNat with hmdef
    have hmc : (m : ℤ) = -c := Int.toNat_of_nonneg (by omega)
    have hmq : (m : ℚ) = -(c : ℚ) := by
      exact_mod_cast congrArg (fun z : ℤ => (z : ℚ)) hmc
    have hm1q : (1 : ℚ) ≤ (m : ℚ) := by
      have : (1 : ℤ) ≤ (m : ℤ) := by omega
      exact_mod_cast this
    obtain ⟨hg1, hg2⟩ := phase_gain_bounds hs (o + c) m
    have hbase : o + c + (m : ℤ) = o := by omega
    rw [hbase] at hg1 hg2
    have heneg : e < -(1/2) := by
      rcases hnz with h | h
      · exact h
      · exact absurd hb1 (by linarith)
    have herr2 : errQ p scale t (o + c) = e + (p o - p (o + c)) * scale := by
      rw [he]
      unfold errQ
      ring
    rcases eq_or_ne (nround (errQ p scale t (o + c))) 0 with hz | hz
    · exact Or.inl hz
    · right
      have hnz2 : errQ p scale t (o + c) < -(1/2)
          ∨ 1/2 < errQ p scale t (o + c) := by
        by_contra hcon
        push_neg at hcon
        exact hz ((nround_eq_zero_iff _).mpr ⟨hcon.1, hcon.2⟩)
      have hub : errQ p scale t (o + c) ≤ 1/2 := by
        rw [herr2]
        have : (p o - p (o + c)) * scale ≤ (m : ℚ) := hg2
        push_cast at hb2 ⊢
        linarith [hmq]
      have hlt2 : errQ p scale t (o + c) < -(1/2) := by
        rcases hnz2 with h | h
        · exact h
        · exact absurd hub (by linarith)
      have hlb : e + δ * m ≤ errQ p scale t (o + c) := by
        rw [herr2]
        linarith [hg1]
      have habs1 : |e| = -e := abs_of_neg (by linarith)
      have habs2 : |errQ p scale t (o + c)| = -(errQ p scale t (o + c)) :=
        abs_of_neg (by linarith)
      rw [habs1, habs2]
      have hδm : δ ≤ δ * m := by nlinarith
      linarith
  · exact absurd hczero hcne
  · -- c ≥ 1, so e > 1/2: the offset moves right by c samples
    have hm1 : (1 : ℤ) ≤ c := by omega
    set m : ℕ := c.toNat with hmdef
    have hmc : (m : ℤ) = c := Int.toNat_of_nonneg (by omega)
    have hmq : (m : ℚ) = (c : ℚ) := by
      exact_mod_cast congrArg (fun z : ℤ => (z : ℚ)) hmc
    have hm1q : (1 : ℚ) ≤ (m : ℚ) := by
      have : (1 : ℤ) ≤ (m : ℤ) := by omega
      exact_mod_cast this
    obtain ⟨hg1, hg2⟩ := phase_gain_bounds hs o m
    have hbase : o + (m : ℤ) = o + c := by omega
    rw [hbase] at hg1 hg2
    have hepos : 1/2 < e := by
      rcases hnz with h | h
      · exact absurd hb2 (by linarith)
      · exact h
    have herr2 : errQ p scale t (o + c) = e - (p (o + c) - p o) * scale := by
      rw [he]
      unfold errQ
      ring
    rcases eq_or_ne (nround (errQ p scale t (o + c))) 0 with hz | hz
    · exact Or.inl hz
    · right
      have hnz2 : errQ p scale t (o + c) < -(1/2)
          ∨ 1/2 < errQ p scale t (o + c) := by
        by_contra hcon
        push_neg at hcon
        exact hz ((nround_eq_zero_iff _).mpr ⟨hcon.1, hcon.2⟩)
      have hlb : -(1/2) ≤ errQ p scale t (o + c) := by
        rw [herr2]
        have : (p (o + c) - p o) * scale ≤ (m : ℚ) := hg2
        linarith [hmq, hb1]
      have hgt2 : 1/2 < errQ p scale t (o + c) := by
        rcases hnz2 with h | h
        · exact absurd hlb (by linarith)
        · exact h
      have hub : errQ p scale t (o + c) ≤ e - δ * m := by
        rw [herr2]
        linarith [hg1]
      have habs1 : |e| = e := abs_of_pos (by linarith)
      have habs2 : |errQ p scale t (o + c)| = errQ p scale t (o + c) :=
        abs_of_pos (by linarith)
      rw [habs1, habs2]
      have hδm : δ ≤ δ * m := by nlinarith
      linarith

/-- The per-index update applied by one loop pass. -/
def stepItem (p : ℤ → ℚ) (scale : ℚ) (it : PhaseItem) : PhaseItem :=
  if it.check = 0 then it
  else ⟨it.target, it.offset + it.check,
    nround ((it.target - p (it.offset + it.check)) * scale)⟩

theorem phaseIter_items (p : ℤ → ℚ) (scale : ℚ) (st : PhaseLoopState) :
    (phaseIter p scale st).items = st.items.map (stepItem p scale) := rfl

/-- The loop invariant for one index: a converged correction, or a
correction that is the rounding of the current residual. -/
def ItemInv (p : ℤ → ℚ) (scale : ℚ) (it : PhaseItem) : Prop :=
  it.check = 0 ∨ it.check = nround (errQ p scale it.target it.offset)

/-- Upper bound on the iterations index `it` still needs. -/
def itemMeasure (p : ℤ → ℚ) (scale δ : ℚ) (it : PhaseItem) : ℕ :=
  if it.check = 0 then 0
  else (⌈(|errQ p scale it.target it.offset| - 1/2) / δ⌉ + 1).toNat

theorem stepItem_inv (p : ℤ → ℚ) (scale : ℚ) (it : PhaseItem) :
    ItemInv p scale (stepItem p scale it) := by
  unfold stepItem
  split
  · exact Or.inl (by assumption)
  · exact Or.inr rfl

theorem stepItem_measure_lt {p : ℤ → ℚ} {scale δ : ℚ} (hδ : 0 < δ)
    (hs : SmoothPhase p scale δ) (it : PhaseItem)
    (hinv : ItemInv p scale it) (hact : it.check ≠ 0) :
    itemMeasure p scale δ (stepItem p scale it) < itemMeasure p scale δ it := by
  have hcr : it.check = nround (errQ p scale it.target it.offset) := by
    rcases hinv with h | h
    · exact absurd h hact
    · exact h
  set e := errQ p scale it.target it.offset with he
  have hegt : 1/2 < |e| := by
    by_contra hcon
    push_neg at hcon
    rw [abs_le] at hcon
    exact hact (hcr.trans ((nround_eq_zero_iff e).mpr ⟨hcon.1, hcon.2⟩))
  have hc1 : (1 : ℤ) ≤ ⌈(|e| - 1/2) / δ⌉ := by
    have hpos : 0 < (|e| - 1/2) / δ := div_pos (by linarith) hδ
    exact Int.ceil_pos.mpr hpos
  have hmeas : itemMeasure p scale δ it = (⌈(|e| - 1/2) / δ⌉ + 1).toNat := by
    unfold itemMeasure
    rw [if_neg hact, ← he]
  have hstep : stepItem p scale it
      = ⟨it.target, it.offset + it.check,
          nround (errQ p scale it.target (it.offset + it.check))⟩ := by
    unfold stepItem
    rw [if_neg hact]
    rfl
  have hdec := step_err_decrease hδ hs it.target it.offset (hcr ▸ hact)
  rw [← hcr] at hdec
  rcases hdec with hz | hlt
  · have : itemMeasure p scale δ (stepItem p scale it) = 0 := by
      rw [hstep]
      unfold itemMeasure
      rw [if_pos hz]
    rw [this, hmeas]
    omega
  · rw [hstep, hmeas]
    unfold itemMeasure
    dsimp only
    split
    · omega
    · have hceil : ⌈(|errQ p scale it.target (it.offset + it.check)| - 1/2) / δ⌉
          ≤ ⌈(|e| - 1/2) / δ⌉ - 1 := by
        have hdd : (|errQ p scale it.target (it.offset + it.check)| - 1/2) / δ
            ≤ (|e| - 1/2) / δ - 1 := by
          rw [div_sub_one hδ.ne', div_le_div_iff₀ hδ hδ]
          nlinarith
        calc ⌈(|errQ p scale it.target (it.offset + it.check)| - 1/2) / δ⌉
            ≤ ⌈(|e| - 1/2) / δ - 1⌉ := Int.ceil_le_ceil hdd
          _ = ⌈(|e| - 1/2) / δ⌉ - 1 := by
              rw [show ((1 : ℚ) = ((1 : ℤ) : ℚ)) from by norm_num,
                Int.ceil_sub_int]
      omega

theorem stepItem_measure_le {p : ℤ → ℚ} {scale δ : ℚ} (hδ : 0 < δ)
    (hs : SmoothPhase p scale δ) (it : PhaseItem)
    (hinv : ItemInv p scale it) :
    itemMeasure p scale δ (stepItem p scale it) ≤ itemMeasure p scale δ it := by
  rcases eq_or_ne it.check 0 with h | h
  · unfold stepItem
    rw [if_pos h]
  · exact le_of_lt (stepItem_measure_lt hδ hs it hinv h)

/-- The total remaining-iterations bound of a loop state. -/
def stMeasure (p : ℤ → ℚ) (scale δ : ℚ) (st : PhaseLoopState) : ℕ :=
  (st.items.map (itemMeasure p scale δ)).sum

theorem sum_measure_le {p : ℤ → ℚ} {scale δ : ℚ} (hδ : 0 < δ)
    (hs : SmoothPhase p scale δ) :
    ∀ items : List PhaseItem, (∀ it ∈ items, ItemInv p scale it) →
      ((items.map (stepItem p scale)).map (itemMeasure p scale δ)).sum
        ≤ (items.map (itemMeasure p scale δ)).sum
  | [], _ => le_rfl
  | it :: rest, hinv => by
      simp only [List.map_cons, List.sum_cons]
      have h1 := stepItem_measure_le hδ hs it (hinv it (by simp))
      have h2 := sum_measure_le hδ hs rest (fun x hx => hinv x (by simp [hx]))
      omega

theorem sum_measure_lt {p : ℤ → ℚ} {scale δ : ℚ} (hδ : 0 < δ)
    (hs : SmoothPhase p scale δ) :
    ∀ items : List PhaseItem, (∀ it ∈ items, ItemInv p scale it) →
      (∃ it ∈ items, it.check ≠ 0) →
      ((items.map (stepItem p scale)).map (itemMeasure p scale δ)).sum
        < (items.map (itemMeasure p scale δ)).sum
  | [], _, hex => by
      obtain ⟨it, hmem, _⟩ := hex
      exact absurd hmem (by simp)
  | it :: rest, hinv, hex => by
      simp only [List.map_cons, List.sum_cons]
      rcases eq_or_ne it.check 0 with hz | hnz
      · have hex2 : ∃ x ∈ rest, x.check ≠ 0 := by
          obtain ⟨x, hmem, hx⟩ := hex
          rcases List.mem_cons.mp hmem with rfl | hmem2
          · exact absurd hz hx
          · exact ⟨x, hmem2, hx⟩
        have h1 := stepItem_measure_le hδ hs it (hinv it (by simp))
        have h2 := sum_measure_lt hδ hs rest
          (fun x hx => hinv x (by simp [hx])) hex2
        omega
      · have h1 := stepItem_measure_lt hδ hs it (hinv it (by simp)) hnz
        have h2 := sum_measure_le hδ hs rest (fun x hx => hinv x (by simp [hx]))
        omega

theorem phaseIter_inv (p : ℤ → ℚ) (scale : ℚ) (st : PhaseLoopState) :
    ∀ it ∈ (phaseIter p scale st).items, ItemInv p scale it := by
  intro it hmem
  rw [phaseIter_items] at hmem
  obtain ⟨it0, _, rfl⟩ := List.mem_map.mp hmem
  exact stepItem_inv p scale it0

theorem not_allConverged_exists {st : PhaseLoopState}
    (h : allConverged st = false) : ∃ it ∈ st.items, it.check ≠ 0 := by
  unfold allConverged at h
  by_contra hcon
  push_neg at hcon
  have : st.items.all (fun it => it.check == 0) = true := by
    rw [List.all_eq_true]
    intro it hmem
    exact beq_iff_eq.mpr (hcon it hmem)
  rw [this] at h
  exact Bool.noConfusion h

theorem phaseLoop_no_timeout {p : ℤ → ℚ} {scale δ : ℚ} (hδ : 0 < δ)
    (hs : SmoothPhase p scale δ) :
    ∀ (fuel : ℕ) (st : PhaseLoopState),
      (∀ it ∈ st.items, ItemInv p scale it) →
      stMeasure p scale δ st < fuel →
      phaseLoop p scale fuel st ≠ OffsetsResult.timeout := by
  intro fuel
  induction fuel with
  | zero =>
      intro st _ hm
      exact absurd hm (by omega)
  | succ fuel ih =>
      intro st hinv hm
      show (if allConverged st then finishPhase st
        else phaseLoop p scale fuel (phaseIter p scale st)) ≠ _
      rcases Bool.eq_false_or_eq_true (allConverged st) with hconv | hconv
      · rw [if_pos hconv]
        unfold finishPhase
        intro hcon
        exact OffsetsResult.noConfusion hcon
      · rw [if_neg (by rw [hconv]; exact Bool.false_ne_true)]
        apply ih (phaseIter p scale st) (phaseIter_inv p scale st)
        have hlt : stMeasure p scale δ (phaseIter p scale st)
            < stMeasure p scale δ st := by
          unfold stMeasure
          rw [phaseIter_items]
          exact sum_measure_lt hδ hs st.items hinv (not_allConverged_exists hconv)
        omega


theorem nround_negOne : nround (-1) = -1 := by
  have h := nround_intCast (-1)
  simpa using h

theorem getOffsetsPhase_cases (p : ℤ → ℚ) (scale : ℚ) (targets : List ℚ)
    (lo : ℤ) (lp : ℚ) (fuel : ℕ) :
    getOffsetsPhase p scale targets lo lp fuel
      = (if allConverged
            ⟨targets.map (fun t => ⟨t, lo, nround ((t - lp) * scale)⟩), []⟩
         then OffsetsResult.typeError
         else phaseLoop p scale fuel
            ⟨targets.map (fun t => ⟨t, lo, nround ((t - lp) * scale)⟩), []⟩) :=
  rfl

/-- Phase function on which the fixed-point loop oscillates forever:
the correction flips between `+1` and `-1`. -/
def exPhaseOsc : ℤ → ℚ :=
  fun o => if o = 0 then 93/10 else if o = 1 then 113/10 else 0

def exOscA : PhaseLoopState := ⟨[⟨103/10, 1, -1⟩], [113/10]⟩

def exOscB : PhaseLoopState := ⟨[⟨103/10, 0, 1⟩], [93/10]⟩

def exOscInit : PhaseLoopState := ⟨[⟨103/10, 0, 1⟩], []⟩

theorem oscIterA : phaseIter exPhaseOsc 1 exOscA = exOscB := by
  unfold phaseIter exOscA exOscB exPhaseOsc
  norm_num [nround_one]

theorem oscIterB : phaseIter exPhaseOsc 1 exOscB = exOscA := by
  unfold phaseIter exOscB exOscA exPhaseOsc
  norm_num [nround_negOne]

theorem oscIterInit : phaseIter exPhaseOsc 1 exOscInit = exOscA := by
  unfold phaseIter exOscInit exOscA exPhaseOsc
  norm_num [nround_negOne]

theorem oscLoop : ∀ fuel : ℕ,
    phaseLoop exPhaseOsc 1 fuel exOscA = OffsetsResult.timeout
    ∧ phaseLoop exPhaseOsc 1 fuel exOscB = OffsetsResult.timeout := by
  intro fuel
  induction fuel with
  | zero => exact ⟨rfl, rfl⟩
  | succ fuel ih =>
      constructor
      · show (if allConverged exOscA then _
          else phaseLoop exPhaseOsc 1 fuel (phaseIter exPhaseOsc 1 exOscA)) = _
        rw [if_neg (by norm_num [allConverged, exOscA]), oscIterA]
        exact ih.2
      · show (if allConverged exOscB then _
          else phaseLoop exPhaseOsc 1 fuel (phaseIter exPhaseOsc 1 exOscB)) = _
        rw [if_neg (by norm_num [allConverged, exOscB]), oscIterB]
        exact ih.1

/-- C4: the phase-driven fixed-point iteration terminates for every phase
function that is locally monotonic and smooth relative to one input
sample's phase increment (`SmoothPhase`: every underlying sample advances
the scaled phase by `δ > 0` to `1`); but the loop has no iteration cap, and
for a strongly varying phase function it need not terminate: there is a
call on which it runs forever, returning timeout for every fuel bound. -/
theorem C4_termination :
    (∀ (p : ℤ → ℚ) (scale δ : ℚ), 0 < δ → SmoothPhase p scale δ →
      ∀ (targets : List ℚ) (lo : ℤ) (lp : ℚ),
        ∃ fuel : ℕ, getOffsetsPhase p scale targets lo lp fuel
          ≠ OffsetsResult.timeout)
    ∧ (∃ (p : ℤ → ℚ) (targets : List ℚ) (lo : ℤ) (lp : ℚ),
        ∀ fuel : ℕ, getOffsetsPhase p 1 targets lo lp fuel
          = OffsetsResult.timeout) := by
  constructor
  · intro p scale δ hδ hs targets lo lp
    rcases Bool.eq_false_or_eq_true (allConverged
        ⟨targets.map (fun t => ⟨t, lo, nround ((t - lp) * scale)⟩), []⟩)
      with hcv | hcv
    · refine ⟨0, ?_⟩
      rw [getOffsetsPhase_cases, if_pos hcv]
      intro hcon
      exact OffsetsResult.noConfusion hcon
    · refine ⟨stMeasure p scale δ (phaseIter p scale
        ⟨targets.map (fun t => ⟨t, lo, nround ((t - lp) * scale)⟩), []⟩) + 2, ?_⟩
      rw [getOffsetsPhase_cases, if_neg (by rw [hcv]; exact Bool.false_ne_true)]
      show (if allConverged _ then finishPhase _
        else phaseLoop p scale _ (phaseIter p scale _)) ≠ _
      rw [if_neg (by rw [hcv]; exact Bool.false_ne_true)]
      exact phaseLoop_no_timeout hδ hs _ _
        (phaseIter_inv p scale _) (by omega)
  · refine ⟨exPhaseOsc, [103/10], 0, 93/10, ?_⟩
    intro fuel
    have hinit : (⟨([103/10] : List ℚ).map
        (fun t => (⟨t, 0, nround ((t - 93/10) * 1)⟩ : PhaseItem)), []⟩
        : PhaseLoopState) = exOscInit := by
      unfold exOscInit
      norm_num [nround_one]
    rw [getOffsetsPhase_cases, hinit,
      if_neg (by norm_num [allConverged, exOscInit])]
    cases fuel with
    | zero => rfl
    | succ fuel =>
        show (if allConverged exOscInit then _
          else phaseLoop exPhaseOsc 1 fuel (phaseIter exPhaseOsc 1 exOscInit)) = _
        rw [if_neg (by norm_num [allConverged, exOscInit]), oscIterInit]
        exact (oscLoop fuel).1

/-- Concrete instance of `C4_termination`: for the linear phase function
(one cycle per underlying sample, `scale = 1`) some fuel suffices. -/
theorem C4_termination_witness :
    ∃ fuel : ℕ, getOffsetsPhase (fun o => (o : ℚ)) 1 [5] 0 0 fuel
      ≠ OffsetsResult.timeout :=
  C4_termination.1 (fun o => (o : ℚ)) 1 1 (by norm_num)
    (fun o => by push_cast; norm_num) [5] 0 0
